import Mathlib

/-!
Verification development for the Solana ETL pipeline.

The definitions below are shallow embeddings of the Rust sources:
parsers.rs (block-to-event parser), events.rs (canonical event model and
deterministic event ids), rpc.rs (retrying RPC client), backfill.rs and
incremental.rs (orchestrator loops, modelled as trace-producing functions),
and warehouse.rs (the Postgres event table, modelled as an association
list keyed by event_id).  Machine integers are modelled as Nat/Int with
explicit wrap-around where it matters; fallible Rust code returns
Except/Option.
-/
/-! ## SHA-256 (model of the sha2 crate as used by generate_event_id) -/
/-- Truncate a natural number to 32 bits. -/
def w32 (n : Nat) : Nat := n % 4294967296

/-- 32-bit rotate right. -/
def rotr32 (n x : Nat) : Nat := w32 ((x >>> n) ||| (x <<< (32 - n)))

def sha256K : List Nat :=
  [1116352408, 1899447441, 3049323471, 3921009573, 961987163,
   1508970993, 2453635748, 2870763221, 3624381080, 310598401,
   607225278, 1426881987, 1925078388, 2162078206, 2614888103,
   3248222580, 3835390401, 4022224774, 264347078, 604807628,
   770255983, 1249150122, 1555081692, 1996064986, 2554220882,
   2821834349, 2952996808, 3210313671, 3336571891, 3584528711,
   113926993, 338241895, 666307205, 773529912, 1294757372,
   1396182291, 1695183700, 1986661051, 2177026350, 2456956037,
   2730485921, 2820302411, 3259730800, 3345764771, 3516065817,
   3600352804, 4094571909, 275423344, 430227734, 506948616,
   659060556, 883997877, 958139571, 1322822218, 1537002063,
   1747873779, 1955562222, 2024104815, 2227730452, 2361852424,
   2428436474, 2756734187, 3204031479, 3329325298]

def sha256Init : List Nat :=
  [1779033703, 3144134277, 1013904242, 2773480762, 1359893119,
   2600822924, 528734635, 1541459225]

/-- Big-endian byte representation of n on k bytes (most significant first). -/
def beBytes : Nat → Nat → List Nat
  | 0, _ => []
  | k + 1, n => beBytes k (n >>> 8) ++ [n % 256]

/-- SHA-256 message padding: append 0x80, zeros, and the 64-bit big-endian
bit length so the total length is a multiple of 64 bytes. -/
def sha256Pad (msg : List Nat) : List Nat :=
  let len := msg.length
  let padZeros := (64 - (len + 9) % 64) % 64
  msg ++ 0x80 :: List.replicate padZeros 0 ++ beBytes 8 (8 * len)

/-- Group a byte list into big-endian 32-bit words. -/
def toWordsBE : List Nat → List Nat
  | b0 :: b1 :: b2 :: b3 :: rest =>
      (((b0 <<< 8 ||| b1) <<< 8 ||| b2) <<< 8 ||| b3) :: toWordsBE rest
  | _ => []

def smallSigma0 (x : Nat) : Nat := w32 (rotr32 7 x ^^^ rotr32 18 x ^^^ (x >>> 3))

def smallSigma1 (x : Nat) : Nat := w32 (rotr32 17 x ^^^ rotr32 19 x ^^^ (x >>> 10))

def bigSigma0 (x : Nat) : Nat := w32 (rotr32 2 x ^^^ rotr32 13 x ^^^ rotr32 22 x)

def bigSigma1 (x : Nat) : Nat := w32 (rotr32 6 x ^^^ rotr32 11 x ^^^ rotr32 25 x)

def chF (x y z : Nat) : Nat := w32 ((x &&& y) ^^^ ((x ^^^ 0xffffffff) &&& z))

def majF (x y z : Nat) : Nat := w32 ((x &&& y) ^^^ (x &&& z) ^^^ (y &&& z))

/-- Extend the 16-word message block to the 64-word schedule (k extension steps). -/
def extendW : Nat → List Nat → List Nat
  | 0, w => w
  | k + 1, w =>
      let n := w.length
      let nw := w32 (w.getD (n - 16) 0 + smallSigma0 (w.getD (n - 15) 0) +
                     w.getD (n - 7) 0 + smallSigma1 (w.getD (n - 2) 0))
      extendW k (w ++ [nw])

def sha256Schedule (w16 : List Nat) : List Nat := extendW 48 w16

/-- One round of the SHA-256 compression function. -/
def compressRound (st : List Nat) (kw : Nat × Nat) : List Nat :=
  match st with
  | [a, b, c, d, e, f, g, h] =>
      let t1 := w32 (h + bigSigma1 e + chF e f g + kw.1 + kw.2)
      let t2 := w32 (bigSigma0 a + majF a b c)
      [w32 (t1 + t2), a, b, c, w32 (d + t1), e, f, g]
  | other => other

/-- Process a single 64-byte chunk, updating the running hash state. -/
def sha256ProcessChunk (h : List Nat) (chunk : List Nat) : List Nat :=
  let ws := sha256Schedule (toWordsBE chunk)
  let st := (sha256K.zip ws).foldl compressRound h
  (h.zip st).map (fun p => w32 (p.1 + p.2))

def chunks64Go : Nat → List Nat → List (List Nat)
  | 0, _ => []
  | fuel + 1, l => if l.isEmpty then [] else l.take 64 :: chunks64Go fuel (l.drop 64)

def chunks64 (l : List Nat) : List (List Nat) := chunks64Go l.length l

def sha256Words (msg : List Nat) : List Nat :=
  (chunks64 (sha256Pad msg)).foldl sha256ProcessChunk sha256Init

def hexChar (n : Nat) : Char := if n < 10 then Char.ofNat (48 + n) else Char.ofNat (87 + n)

/-- Lowercase hex digits of n, k digits, most significant first. -/
def toHexDigits : Nat → Nat → List Char
  | 0, _ => []
  | k + 1, n => toHexDigits k (n / 16) ++ [hexChar (n % 16)]

/-- Lowercase hex digest of a byte list, as produced by format "{:x}" on the
sha2 crate digest. -/
def sha256Hex (msg : List Nat) : String :=
  String.mk ((sha256Words msg).flatMap (fun wrd => toHexDigits 8 wrd))

/-- UTF-8 encoding of a character (str::as_bytes in the Rust source). -/
def utf8EncodeChar (c : Char) : List Nat :=
  let n := c.toNat
  if n < 0x80 then [n]
  else if n < 0x800 then [0xc0 ||| (n >>> 6), 0x80 ||| (n &&& 0x3f)]
  else if n < 0x10000 then
    [0xe0 ||| (n >>> 12), 0x80 ||| ((n >>> 6) &&& 0x3f), 0x80 ||| (n &&& 0x3f)]
  else
    [0xf0 ||| (n >>> 18), 0x80 ||| ((n >>> 12) &&& 0x3f),
     0x80 ||| ((n >>> 6) &&& 0x3f), 0x80 ||| (n &&& 0x3f)]

def strToBytes (s : String) : List Nat := s.data.flatMap utf8EncodeChar

/-! ## JSON values (model of serde_json::Value; numbers are restricted to
integers, which covers every field the pipeline reads via as_i64/as_str). -/
inductive Json where
  | null
  | bool (b : Bool)
  | num (n : Int)
  | str (s : String)
  | arr (items : List Json)
  | obj (fields : List (String × Json))

/-- Value::get(key): field lookup on objects, None otherwise. -/
def Json.get (j : Json) (key : String) : Option Json :=
  match j with
  | .obj fields => (fields.find? (fun p => p.1 = key)).map (fun p => p.2)
  | _ => none

/-- Value::as_array. -/
def Json.asArr : Json → Option (List Json)
  | .arr l => some l
  | _ => none

/-- Value::as_str. -/
def Json.asStr : Json → Option String
  | .str s => some s
  | _ => none

/-- Value::as_i64: integers representable in a signed 64-bit word. -/
def Json.asInt : Json → Option Int
  | .num n => if -(2 ^ 63) ≤ n ∧ n < 2 ^ 63 then some n else none
  | _ => none

/-- Value::is_null. -/
def Json.isNull : Json → Bool
  | .null => true
  | _ => false

/-! ## Canonical events (events.rs) -/
/-- CanonicalEvent from events.rs; block_time is the UTC timestamp in
seconds (chrono DateTime is determined by its timestamp here). -/
structure CanonicalEvent where
  event_id : String
  slot : Nat
  block_time : Int
  tx_signature : String
  program_id : Option String
  instruction_index : Int
  event_type : String
  raw_payload : Json

/-- CanonicalEvent::generate_event_id: SHA-256 hex digest of
"{slot}:{tx_signature}:{instruction_index}:{event_type}". -/
def CanonicalEvent.generate_event_id (slot : Nat) (tx_signature : String)
    (instruction_index : Int) (event_type : String) : String :=
  let input := toString slot ++ ":" ++ tx_signature ++ ":" ++
    toString instruction_index ++ ":" ++ event_type
  sha256Hex (strToBytes input)

/-- CanonicalEvent::new. -/
def CanonicalEvent.new (slot : Nat) (block_time : Int) (tx_signature : String)
    (program_id : Option String) (instruction_index : Int) (event_type : String)
    (raw_payload : Json) : CanonicalEvent :=
  { event_id := CanonicalEvent.generate_event_id slot tx_signature instruction_index event_type
    slot := slot
    block_time := block_time
    tx_signature := tx_signature
    program_id := program_id
    instruction_index := instruction_index
    event_type := event_type
    raw_payload := raw_payload }

/-! ## Block parser (parsers.rs) -/
def TOKEN_PROGRAM_ID : String := "TokenkegQfeZyiNwAJbNbGKPFXCWuBvf9Ss623VQ5DA"

def TOKEN_2022_PROGRAM_ID : String := "TokenzQdBNbLqP5VEhdkAS6EPFLC1PHnBqCXEpPxuEb"

/-- Valid range of chrono DateTime::from_timestamp (seconds). -/
def chronoMinTimestamp : Int := -8334601228800

def chronoMaxTimestamp : Int := 8210266876799

/-- chrono DateTime::from_timestamp(secs, 0), identified with its timestamp. -/
def dateTimeFromTimestamp (secs : Int) : Option Int :=
  if chronoMinTimestamp ≤ secs ∧ secs ≤ chronoMaxTimestamp then some secs else none

/-- extract_block_time from parsers.rs. -/
def extract_block_time (block : Json) : Except String Int :=
  match (block.get "blockTime").bind Json.asInt with
  | none => .error "Missing blockTime"
  | some ts =>
    match dateTimeFromTimestamp ts with
    | none => .error ("Invalid timestamp: " ++ toString ts)
    | some t => .ok t

/-- extract_signature from parsers.rs. -/
def extract_signature (tx : Json) : Except String String :=
  match (((tx.get "signatures").bind Json.asArr).bind List.head?).bind Json.asStr with
  | some s => .ok s
  | none => .error "Missing transaction signature"

/-- extract_instructions from parsers.rs. -/
def extract_instructions (tx : Json) : Except String (List Json) :=
  match ((tx.get "message").bind (fun m => m.get "instructions")).bind Json.asArr with
  | some l => .ok l
  | none => .error "Missing instructions"

/-- The program id string an instruction is classified by:
programId as a string, or "unknown" when absent. -/
def instructionProgramId (instruction : Json) : String :=
  ((instruction.get "programId").bind Json.asStr).getD "unknown"

/-- parse_instruction from parsers.rs: classify by program id and emit one
event carrying the instruction payload. -/
def parse_instruction (instruction : Json) (slot : Nat) (block_time : Int)
    (tx_signature : String) (instruction_index : Int) :
    Except String (List CanonicalEvent) :=
  let program_id := (instruction.get "programId").bind Json.asStr
  let program_id_str := instructionProgramId instruction
  let event_type :=
    if program_id_str = TOKEN_PROGRAM_ID ∨ program_id_str = TOKEN_2022_PROGRAM_ID then
      "token_instruction"
    else
      "program_instruction"
  .ok [CanonicalEvent.new slot block_time tx_signature program_id instruction_index
        event_type instruction]

/-- extract_token_transfers from parsers.rs: one token_transfer event per
postTokenBalances entry that carries a mint string. -/
def extract_token_transfers (meta : Json) (slot : Nat) (block_time : Int)
    (tx_signature : String) : Except String (List CanonicalEvent) :=
  let post := ((meta.get "postTokenBalances").bind Json.asArr).getD []
  .ok (post.enum.filterMap (fun p =>
    match (p.2.get "mint").bind Json.asStr with
    | some _ => some (CanonicalEvent.new slot block_time tx_signature
        (some TOKEN_PROGRAM_ID) (Int.ofNat p.1) "token_transfer" p.2)
    | none => none))

/-- The per-instruction events of a transaction: one event per instruction
in instruction order (an instruction whose parse fails is skipped). -/
def instrEventsOf (instructions : List Json) (slot : Nat) (block_time : Int)
    (signature : String) : List CanonicalEvent :=
  instructions.enum.flatMap (fun p =>
    match parse_instruction p.2 slot block_time signature (Int.ofNat p.1) with
    | .ok evs => evs
    | .error _ => [])

/-- The derived transfer events of a transaction (a failure contributes
nothing, mirroring the if-let in the source). -/
def transfersOf (meta : Json) (slot : Nat) (block_time : Int)
    (signature : String) : List CanonicalEvent :=
  match extract_token_transfers meta slot block_time signature with
  | .ok ts => ts
  | .error _ => []

/-- parse_transaction from parsers.rs: base transaction event, then one event
per instruction (failures skipped), then derived token transfers. -/
def parse_transaction (tx : Json) (slot : Nat) (block_time : Int) (_tx_idx : Nat) :
    Except String (List CanonicalEvent) :=
  match tx.get "meta" with
  | none => .error "Missing transaction meta"
  | some meta =>
    match tx.get "transaction" with
    | none => .error "Missing transaction data"
    | some tx_data =>
      match extract_signature tx_data with
      | .error e => .error e
      | .ok signature =>
        match extract_instructions tx_data with
        | .error e => .error e
        | .ok instructions =>
          let base := CanonicalEvent.new slot block_time signature none (-1)
            "transaction" tx
          .ok (base :: (instrEventsOf instructions slot block_time signature ++
            transfersOf meta slot block_time signature))

/-- Events contributed by one enumerated transaction inside parse_block:
a transaction that fails to parse contributes zero events. -/
def txEvents (slot : Nat) (block_time : Int) (p : Nat × Json) : List CanonicalEvent :=
  match parse_transaction p.2 slot block_time p.1 with
  | .ok evs => evs
  | .error _ => []

/-- parse_block from parsers.rs. -/
def parse_block (block : Json) (slot : Nat) : Except String (List CanonicalEvent) :=
  match extract_block_time block with
  | .error e => .error e
  | .ok block_time =>
    match (block.get "transactions").bind Json.asArr with
    | none => .error "Missing transactions array"
    | some transactions =>
      .ok (transactions.enum.flatMap (txEvents slot block_time))

/-- flatten_instructions from parsers.rs: hook that currently passes every
event through unchanged. -/
def flatten_instructions (events : List CanonicalEvent) : List CanonicalEvent :=
  match events with
  | [] => []
  | event :: rest =>
    if event.event_type = "transaction" then
      event :: flatten_instructions rest
    else if event.event_type = "program_instruction" ∨ event.event_type = "token_instruction" then
      event :: flatten_instructions rest
    else
      event :: flatten_instructions rest

/-! ## RPC client (rpc.rs): retry loop and get_block null handling -/
structure RpcErrorInfo where
  code : Int
  message : String

/-- What the endpoint would answer on a given attempt: a response whose
error field is empty (success carries the result value, Null when absent),
or a response carrying a JSON-RPC error object. -/
inductive AttemptResult where
  | success (v : Json)
  | failure (e : RpcErrorInfo)

/-- The retry condition of rpc_call: error.code == 429 or 5xx. -/
def retryableCode (code : Int) : Bool :=
  code == 429 || (500 ≤ code && code < 600)

/-- The retry loop of AlchemyRPCClient::rpc_call.  attempts gives the
response of each attempt (0-based); remaining is max_retries minus the
retries already used, so a retry is allowed exactly when remaining > 0,
matching the retries < max_retries test.  Returns the outcome together
with the list of backoff delays slept, in seconds. -/
def rpc_call_go (attempts : Nat → AttemptResult) :
    Nat → Nat → Except RpcErrorInfo Json × List Nat
  | remaining, r =>
    match attempts r with
    | .success v => (.ok v, [])
    | .failure e =>
      match remaining with
      | 0 => (.error e, [])
      | rem + 1 =>
        if retryableCode e.code then
          let next := rpc_call_go attempts rem (r + 1)
          (next.1, 2 ^ r :: next.2)
        else (.error e, [])

def rpc_call_model (attempts : Nat → AttemptResult) (max_retries : Nat) :
    Except RpcErrorInfo Json × List Nat :=
  rpc_call_go attempts max_retries 0

/-- AlchemyRPCClient::get_block applied to the rpc_call outcome: a null
result is the valid skipped-slot outcome Ok(None). -/
def get_block_model (call_result : Except RpcErrorInfo Json) :
    Except RpcErrorInfo (Option Json) :=
  match call_result with
  | .error e => .error e
  | .ok v => if v.isNull then .ok none else .ok (some v)

/-! ## Backfill chunking (run_backfill in backfill.rs) -/
/-- Rust Iterator::step_by over the range cur..stop (step ≥ 1 in the source;
step_by panics on 0).  Fuel is the range width, which bounds the number of
iterations. -/
def stepByGo (step : Nat) : Nat → Nat → Nat → List Nat
  | 0, _, _ => []
  | fuel + 1, cur, stop => if cur < stop then cur :: stepByGo step fuel (cur + step) stop else []

def rangeStepBy (start stop step : Nat) : List Nat :=
  stepByGo step (stop - start) start stop

/-- The chunk list computed by run_backfill: starts stepped by chunk_size,
each chunk ending at min (start + chunk_size) end_slot. -/
def backfillChunks (start_slot end_slot chunk_size : Nat) : List (Nat × Nat) :=
  (rangeStepBy start_slot end_slot chunk_size).map
    (fun s => (s, min (s + chunk_size) end_slot))

/-! ## Warehouse sink (warehouse.rs, PostgresWarehouse) -/
/-- One row of the fact_transactions table, keyed externally by event_id.
The created_at/updated_at bookkeeping timestamps (NOW()) are not modelled. -/
structure EventRow where
  slot : Nat
  block_time : Int
  tx_signature : String
  program_id : Option String
  instruction_index : Int
  event_type : String
  raw_payload : Json

def rowOfEvent (e : CanonicalEvent) : EventRow :=
  { slot := e.slot
    block_time := e.block_time
    tx_signature := e.tx_signature
    program_id := e.program_id
    instruction_index := e.instruction_index
    event_type := e.event_type
    raw_payload := e.raw_payload }

/-- The events table: rows in insertion order, keyed by event_id. -/
abbrev Store := List (String × EventRow)

def storeKeys (st : Store) : List String := st.map (fun p => p.1)

def storeLookup (st : Store) (k : String) : Option EventRow :=
  (st.find? (fun p => p.1 = k)).map (fun p => p.2)

/-- Replacement of the raw_payload column of a row, as performed by the
ON CONFLICT DO UPDATE clause. -/
def setPayload (r : EventRow) (pl : Json) : EventRow :=
  { r with raw_payload := pl }

/-- The ON CONFLICT (event_id) DO UPDATE upsert of insert_events: on
conflict only raw_payload is replaced (besides updated_at); otherwise the
full row is appended. -/
def upsertRow (st : Store) (k : String) (r : EventRow) : Store :=
  if st.any (fun p => p.1 = k) then
    st.map (fun p => if p.1 = k then (p.1, setPayload p.2 r.raw_payload) else p)
  else
    st ++ [(k, r)]

/-- PostgresWarehouse::insert_events: one upsert per event of the batch, in
batch order (the empty batch returns without touching the store). -/
def insert_events (st : Store) (events : List CanonicalEvent) : Store :=
  events.foldl (fun acc e => upsertRow acc e.event_id (rowOfEvent e)) st

/-- The payload of the last event of the batch carrying a given event_id. -/
def lastPayload (events : List CanonicalEvent) (k : String) : Option Json :=
  (events.reverse.find? (fun e => e.event_id = k)).map (fun e => e.raw_payload)

/-! ## Orchestrator loops (backfill.rs process_chunk, incremental.rs
process_incremental), modelled as durable-effect traces -/
/-- A durable effect issued to the warehouse: a batch insert or a cursor
(last_confirmed_slot) write. -/
inductive Op where
  | insert (batch : List CanonicalEvent)
  | cursor (slot : Nat)

/-- Rust u64 remainder: panics (none) when the divisor is zero. -/
def rustMod (a b : Nat) : Option Nat :=
  if b = 0 then none else some (a % b)

/-- The events one slot contributes after fetch and parse: a null block or
a parse failure contributes zero events; otherwise the parsed events pass
through flatten_instructions. -/
def slotEvents (fetched : Option Json) (slot : Nat) : List CanonicalEvent :=
  match fetched with
  | none => []
  | some block =>
    match parse_block block slot with
    | .error _ => []
    | .ok evs => flatten_instructions evs

/-- The fetch/parse/batch phase of one loop iteration: extend the batch on a
successful parse and flush it when it reaches batch_size; a null block or
parse failure leaves the batch untouched and issues no operation. -/
def fetchPhase (batch_size : Nat) (fetched : Option Json) (slot : Nat)
    (batch : List CanonicalEvent) : List Op × List CanonicalEvent :=
  match fetched with
  | none => ([], batch)
  | some block =>
    match parse_block block slot with
    | .error _ => ([], batch)
    | .ok evs =>
      let batch1 := batch ++ flatten_instructions evs
      if batch_size ≤ batch1.length then ([Op.insert batch1], []) else ([], batch1)

/-- The insert issued when a non-empty batch is flushed at a checkpoint or
at the end of the loop (the code tests !batch.is_empty() first). -/
def maybeFlush (batch : List CanonicalEvent) : List Op :=
  if batch.isEmpty then [] else [Op.insert batch]

/-- The shared while-loop of process_chunk and process_incremental.  fetch
models rpc_client.get_block (already unwrapped: none is a null block),
processedQ models warehouse.is_slot_processed (identically false for the
incremental loop, which performs no such check).  Fuel is end_slot - slot,
maintained by every call.  Returns none when the checkpoint arithmetic
panics (division by zero), else the trace of warehouse operations. -/
def etlLoop (fetch : Nat → Option Json) (processedQ : Nat → Bool)
    (batch_size checkpoint_interval start_slot end_slot : Nat) :
    Nat → Nat → List CanonicalEvent → Option (List Op)
  | 0, _, batch => some (maybeFlush batch ++ [Op.cursor (end_slot - 1)])
  | fuel + 1, slot, batch =>
    if slot < end_slot then
      if processedQ slot then
        etlLoop fetch processedQ batch_size checkpoint_interval start_slot end_slot
          fuel (slot + 1) batch
      else
        match fetchPhase batch_size (fetch slot) slot batch,
            rustMod (slot + 1 - start_slot) checkpoint_interval with
        | _, none => none
        | (flushOps, batch2), some r =>
          if r = 0 then
            (etlLoop fetch processedQ batch_size checkpoint_interval start_slot end_slot
                fuel (slot + 1) []).map
              (fun rest => flushOps ++ maybeFlush batch2 ++ Op.cursor slot :: rest)
          else
            (etlLoop fetch processedQ batch_size checkpoint_interval start_slot end_slot
                fuel (slot + 1) batch2).map
              (fun rest => flushOps ++ rest)
    else
      some (maybeFlush batch ++ [Op.cursor (end_slot - 1)])

/-- process_chunk over [start_slot, end_slot): the loop from start_slot with
an empty batch, then a final flush and a cursor write of end_slot - 1. -/
def processChunkModel (fetch : Nat → Option Json) (processedQ : Nat → Bool)
    (batch_size checkpoint_interval start_slot end_slot : Nat) : Option (List Op) :=
  etlLoop fetch processedQ batch_size checkpoint_interval start_slot end_slot
    (end_slot - start_slot) start_slot []

/-- process_incremental: read the cursor (0 when unset), no-op when the
chain tip has not advanced, else run the shared loop over
[last + 1, tip + 1) and finish with a cursor write of the tip
(= end_slot - 1, covered by the loop's final write). -/
def processIncrementalModel (fetch : Nat → Option Json)
    (batch_size checkpoint_interval : Nat) (lastOpt : Option Nat) (tip : Nat) :
    Option (List Op) :=
  let last := lastOpt.getD 0
  if tip ≤ last then some []
  else
    etlLoop fetch (fun _ => false) batch_size checkpoint_interval (last + 1) (tip + 1)
      (tip + 1 - (last + 1)) (last + 1) []

/-- The cursor values written along a trace, in order. -/
def cursorVals : List Op → List Nat
  | [] => []
  | Op.insert _ :: t => cursorVals t
  | Op.cursor c :: t => c :: cursorVals t

/-- All events inserted along a trace, in order. -/
def insertedEvents : List Op → List CanonicalEvent
  | [] => []
  | Op.insert b :: t => b ++ insertedEvents t
  | Op.cursor _ :: t => insertedEvents t

/-- The events of the slot range [s, s + k), in slot order. -/
def rangeEvents (fetch : Nat → Option Json) (s k : Nat) : List CanonicalEvent :=
  (List.range' s k).flatMap (fun i => slotEvents (fetch i) i)

/-- Durability of cursor writes along a trace: scanning the trace with the
events inserted so far accumulated in acc, every cursor write c happens at a
moment where exactly the events of slots start_slot..c have been inserted. -/
def cursorsDurable (fetch : Nat → Option Json) (start_slot : Nat) :
    List CanonicalEvent → List Op → Prop
  | _, [] => True
  | acc, Op.insert b :: t => cursorsDurable fetch start_slot (acc ++ b) t
  | acc, Op.cursor c :: t =>
      acc = rangeEvents fetch start_slot (c + 1 - start_slot) ∧
        cursorsDurable fetch start_slot acc t

/-- An interleaving of two concurrently produced sequences, as observed at
the shared warehouse. -/
inductive Interleaving : List α → List α → List α → Prop
  | nil : Interleaving [] [] []
  | left {x : α} {xs ys zs : List α} :
      Interleaving xs ys zs → Interleaving (x :: xs) ys (x :: zs)
  | right {y : α} {xs ys zs : List α} :
      Interleaving xs ys zs → Interleaving xs (y :: ys) (y :: zs)

/-! ## Claim C7: idempotency of insert_events -/
/-- The conflict action of the upsert applied to a whole store: replace
raw_payload on every row keyed k (the primary key makes at most one such
row exist in practice). -/
def writePayload (st : Store) (k : String) (pl : Json) : Store :=
  st.map (fun p => if p.1 = k then (p.1, setPayload p.2 pl) else p)

/-- Every row keyed k carries payload pl. -/
def keyPayloadIs (st : Store) (k : String) (pl : Json) : Prop :=
  ∀ q ∈ st, q.1 = k → q.2.raw_payload = pl

def batchIds (b : List CanonicalEvent) : List String := b.map (fun e => e.event_id)

def txWitness : Json :=
  Json.obj [("meta", Json.obj []),
    ("transaction", Json.obj [("signatures", Json.arr [Json.str "s1"]),
      ("message", Json.obj [("instructions", Json.arr [])])])]

def blockWitness : Json :=
  Json.obj [("blockTime", Json.num 1700000000), ("transactions", Json.arr [txWitness])]

def emptyBlockWitness : Json :=
  Json.obj [("blockTime", Json.num 1700000000), ("transactions", Json.arr [])]

def noTxBlockWitness : Json := Json.obj [("blockTime", Json.num 1700000000)]

def instrOtherWitness : Json := Json.obj [("programId", Json.str "SomeOtherProgram1111111")]

def instrTokenWitness : Json :=
  Json.obj [("programId", Json.str "TokenkegQfeZyiNwAJbNbGKPFXCWuBvf9Ss623VQ5DA")]

def txdWitness3 : Json :=
  Json.obj [("signatures", Json.arr [Json.str "s3"]),
    ("message", Json.obj [("instructions",
      Json.arr [instrOtherWitness, instrTokenWitness, instrOtherWitness])])]

def txWitness3 : Json := Json.obj [("meta", Json.obj []), ("transaction", txdWitness3)]

/-! ## Trace lemmas for the orchestrator loops -/
theorem cursorVals_append (a b : List Op) :
    cursorVals (a ++ b) = cursorVals a ++ cursorVals b := by
  induction a with
  | nil => simp [cursorVals]
  | cons op t ih => cases op <;> simp [cursorVals, ih]

theorem insertedEvents_append (a b : List Op) :
    insertedEvents (a ++ b) = insertedEvents a ++ insertedEvents b := by
  induction a with
  | nil => simp [insertedEvents]
  | cons op t ih => cases op <;> simp [insertedEvents, ih]

theorem cursorVals_maybeFlush (b : List CanonicalEvent) : cursorVals (maybeFlush b) = [] := by
  by_cases hb : b.isEmpty <;> simp [maybeFlush, hb, cursorVals]

theorem insertedEvents_maybeFlush (b : List CanonicalEvent) :
    insertedEvents (maybeFlush b) = b := by
  by_cases hb : b.isEmpty <;> simp [maybeFlush, hb, insertedEvents]
  exact List.isEmpty_iff.mp hb

/-- Each loop iteration's fetch phase either keeps the batch (extended by
the slot's events) or flushes everything as a single insert. -/
theorem fetchPhase_spec (bs : Nat) (f : Option Json) (slot : Nat)
    (batch : List CanonicalEvent) :
    fetchPhase bs f slot batch = ([], batch ++ slotEvents f slot) ∨
    fetchPhase bs f slot batch = ([Op.insert (batch ++ slotEvents f slot)], []) := by
  cases f with
  | none => left; simp [fetchPhase, slotEvents]
  | some block =>
    cases hp : parse_block block slot with
    | error e => left; simp [fetchPhase, slotEvents, hp]
    | ok evs =>
      simp only [fetchPhase, slotEvents, hp]
      by_cases hlen : bs ≤ (batch ++ flatten_instructions evs).length
      · right; rw [if_pos hlen]
      · left; rw [if_neg hlen]

/-- Unfolding: the loop at the end of the range (or out of fuel). -/
theorem etlLoop_end (fetch : Nat → Option Json) (processedQ : Nat → Bool)
    (bs ci start_ end_ fuel slot : Nat) (batch : List CanonicalEvent)
    (h : ¬ slot < end_ ∨ fuel = 0) :
    etlLoop fetch processedQ bs ci start_ end_ fuel slot batch =
      some (maybeFlush batch ++ [Op.cursor (end_ - 1)]) := by
  rcases h with h | h
  · cases fuel with
    | zero => rfl
    | succ n => simp [etlLoop, h]
  · subst h; rfl

/-- Unfolding: an already-processed slot is skipped without a checkpoint. -/
theorem etlLoop_skip (fetch : Nat → Option Json) (processedQ : Nat → Bool)
    (bs ci start_ end_ n slot : Nat) (batch : List CanonicalEvent)
    (h1 : slot < end_) (h2 : processedQ slot = true) :
    etlLoop fetch processedQ bs ci start_ end_ (n + 1) slot batch =
      etlLoop fetch processedQ bs ci start_ end_ n (slot + 1) batch := by
  simp [etlLoop, h1, h2]

/-- Unfolding: a checkpoint iteration (the post-increment offset is a
multiple of the interval) flushes the batch and writes the cursor. -/
theorem etlLoop_checkpoint (fetch : Nat → Option Json) (processedQ : Nat → Bool)
    (bs ci start_ end_ n slot : Nat) (batch flushRest : List CanonicalEvent)
    (flushOps : List Op)
    (h1 : slot < end_) (h2 : processedQ slot = false)
    (hfp : fetchPhase bs (fetch slot) slot batch = (flushOps, flushRest))
    (hci : ci ≠ 0) (hr : (slot + 1 - start_) % ci = 0) :
    etlLoop fetch processedQ bs ci start_ end_ (n + 1) slot batch =
      (etlLoop fetch processedQ bs ci start_ end_ n (slot + 1) []).map
        (fun rest => flushOps ++ maybeFlush flushRest ++ Op.cursor slot :: rest) := by
  have hmod : rustMod (slot + 1 - start_) ci = some ((slot + 1 - start_) % ci) := by
    simp [rustMod, hci]
  simp [etlLoop, h1, h2, hfp, hmod, hr]

/-- Unfolding: a non-checkpoint iteration carries the batch forward. -/
theorem etlLoop_step (fetch : Nat → Option Json) (processedQ : Nat → Bool)
    (bs ci start_ end_ n slot : Nat) (batch flushRest : List CanonicalEvent)
    (flushOps : List Op)
    (h1 : slot < end_) (h2 : processedQ slot = false)
    (hfp : fetchPhase bs (fetch slot) slot batch = (flushOps, flushRest))
    (hci : ci ≠ 0) (hr : (slot + 1 - start_) % ci ≠ 0) :
    etlLoop fetch processedQ bs ci start_ end_ (n + 1) slot batch =
      (etlLoop fetch processedQ bs ci start_ end_ n (slot + 1) flushRest).map
        (fun rest => flushOps ++ rest) := by
  have hmod : rustMod (slot + 1 - start_) ci = some ((slot + 1 - start_) % ci) := by
    simp [rustMod, hci]
  simp [etlLoop, h1, h2, hfp, hmod, hr]

/-- Unfolding: a zero checkpoint interval panics on the first non-skipped
slot of the range. -/
theorem etlLoop_panic (fetch : Nat → Option Json) (processedQ : Nat → Bool)
    (bs start_ end_ n slot : Nat) (batch : List CanonicalEvent)
    (h1 : slot < end_) (h2 : processedQ slot = false) :
    etlLoop fetch processedQ bs 0 start_ end_ (n + 1) slot batch = none := by
  rcases fetchPhase_spec bs (fetch slot) slot batch with hfp | hfp <;>
    simp [etlLoop, h1, h2, hfp, rustMod]

/-- The loop never fails when checkpoint_interval is at least 1. -/
theorem etlLoop_total (fetch : Nat → Option Json) (processedQ : Nat → Bool)
    (bs ci start_ end_ : Nat) (hci : 1 ≤ ci) :
    ∀ fuel slot batch,
      ∃ t, etlLoop fetch processedQ bs ci start_ end_ fuel slot batch = some t := by
  intro fuel
  induction fuel with
  | zero => intro slot batch; exact ⟨_, rfl⟩
  | succ n ih =>
    intro slot batch
    by_cases h1 : slot < end_
    · by_cases h2 : processedQ slot
      · rw [etlLoop_skip fetch processedQ bs ci start_ end_ n slot batch h1 h2]
        exact ih (slot + 1) batch
      · obtain ⟨flushOps, flushRest, hfp⟩ :
            ∃ o b2, fetchPhase bs (fetch slot) slot batch = (o, b2) := ⟨_, _, rfl⟩
        by_cases hr : (slot + 1 - start_) % ci = 0
        · rw [etlLoop_checkpoint fetch processedQ bs ci start_ end_ n slot batch flushRest
            flushOps h1 (by simpa using h2) hfp (by omega) hr]
          obtain ⟨t, ht⟩ := ih (slot + 1) []
          exact ⟨_, by rw [ht]; rfl⟩
        · rw [etlLoop_step fetch processedQ bs ci start_ end_ n slot batch flushRest
            flushOps h1 (by simpa using h2) hfp (by omega) hr]
          obtain ⟨t, ht⟩ := ih (slot + 1) flushRest
          exact ⟨_, by rw [ht]; rfl⟩
    · exact ⟨_, etlLoop_end fetch processedQ bs ci start_ end_ (n + 1) slot batch (Or.inl h1)⟩

/-- Every cursor value the loop writes lies between min slot (end_ - 1) and
end_ - 1, and the cursor write sequence is non-decreasing. -/
theorem etlLoop_cursor_sorted (fetch : Nat → Option Json) (processedQ : Nat → Bool)
    (bs ci start_ end_ : Nat) :
    ∀ fuel slot batch t, slot + fuel = end_ → 1 ≤ end_ →
      etlLoop fetch processedQ bs ci start_ end_ fuel slot batch = some t →
      (∀ c ∈ cursorVals t, min slot (end_ - 1) ≤ c ∧ c ≤ end_ - 1) ∧
        List.Chain' (· ≤ ·) (cursorVals t) := by
  intro fuel
  induction fuel with
  | zero =>
    intro slot batch t hinv hend ht
    rw [etlLoop_end fetch processedQ bs ci start_ end_ 0 slot batch (Or.inr rfl)] at ht
    obtain rfl : maybeFlush batch ++ [Op.cursor (end_ - 1)] = t := by
      simpa using ht
    rw [cursorVals_append, cursorVals_maybeFlush]
    simp [cursorVals]
    omega
  | succ n ih =>
    intro slot batch t hinv hend ht
    have h1 : slot < end_ := by omega
    by_cases h2 : processedQ slot
    · rw [etlLoop_skip fetch processedQ bs ci start_ end_ n slot batch h1 h2] at ht
      have := ih (slot + 1) batch t (by omega) hend ht
      exact ⟨fun c hc => by have := this.1 c hc; omega, this.2⟩
    · obtain ⟨flushOps, flushRest, hfp⟩ :
          ∃ o b2, fetchPhase bs (fetch slot) slot batch = (o, b2) := ⟨_, _, rfl⟩
      have hops : cursorVals flushOps = [] := by
        rcases fetchPhase_spec bs (fetch slot) slot batch with h | h <;>
          rw [hfp] at h <;> cases h <;> simp [cursorVals]
      by_cases hci : ci = 0
      · subst hci
        rw [etlLoop_panic fetch processedQ bs start_ end_ n slot batch h1
          (by simpa using h2)] at ht
        exact absurd ht (by simp)
      · by_cases hr : (slot + 1 - start_) % ci = 0
        · rw [etlLoop_checkpoint fetch processedQ bs ci start_ end_ n slot batch flushRest
            flushOps h1 (by simpa using h2) hfp hci hr] at ht
          cases hrec : etlLoop fetch processedQ bs ci start_ end_ n (slot + 1) [] with
          | none => rw [hrec] at ht; exact absurd ht (by simp)
          | some rest =>
            rw [hrec] at ht
            obtain rfl : flushOps ++ maybeFlush flushRest ++ Op.cursor slot :: rest = t := by
              simpa using ht
            have hrest := ih (slot + 1) [] rest (by omega) hend hrec
            rw [cursorVals_append, cursorVals_append, hops, cursorVals_maybeFlush]
            simp only [cursorVals, List.nil_append]
            constructor
            · intro c hc
              rcases List.mem_cons.mp hc with rfl | hc
              · omega
              · have := hrest.1 c hc; omega
            · rw [List.chain'_cons']
              refine ⟨fun y hy => ?_, hrest.2⟩
              have := hrest.1 y (List.mem_of_mem_head? hy)
              omega
        · rw [etlLoop_step fetch processedQ bs ci start_ end_ n slot batch flushRest
            flushOps h1 (by simpa using h2) hfp hci hr] at ht
          cases hrec : etlLoop fetch processedQ bs ci start_ end_ n (slot + 1) flushRest with
          | none => rw [hrec] at ht; exact absurd ht (by simp)
          | some rest =>
            rw [hrec] at ht
            obtain rfl : flushOps ++ rest = t := by simpa using ht
            have hrest := ih (slot + 1) flushRest rest (by omega) hend hrec
            rw [cursorVals_append, hops, List.nil_append]
            exact ⟨fun c hc => by have := hrest.1 c hc; omega, hrest.2⟩

theorem rangeEvents_zero (fetch : Nat → Option Json) (s : Nat) :
    rangeEvents fetch s 0 = [] := rfl

theorem rangeEvents_succ_left (fetch : Nat → Option Json) (s k : Nat) :
    rangeEvents fetch s (k + 1) = slotEvents (fetch s) s ++ rangeEvents fetch (s + 1) k := by
  rw [rangeEvents, List.range'_succ, List.flatMap_cons]; rfl

theorem rangeEvents_succ_right (fetch : Nat → Option Json) (s k : Nat) :
    rangeEvents fetch s (k + 1) =
      rangeEvents fetch s k ++ slotEvents (fetch (s + k)) (s + k) := by
  rw [rangeEvents, List.range'_concat, List.flatMap_append]
  simp [rangeEvents]

theorem cursorsDurable_maybeFlush (fetch : Nat → Option Json) (start_ : Nat)
    (acc b : List CanonicalEvent) (t : List Op) :
    cursorsDurable fetch start_ acc (maybeFlush b ++ t) ↔
      cursorsDurable fetch start_ (acc ++ b) t := by
  by_cases hb : b.isEmpty
  · obtain rfl : b = [] := List.isEmpty_iff.mp hb
    simp [maybeFlush]
  · simp [maybeFlush, hb, cursorsDurable]

/-- Durability invariant of the loop (no is_slot_processed skips): when the
events inserted so far plus the pending batch are exactly the events of
slots start_..slot-1, every cursor write in the remaining trace happens
after the events of all covered slots have been inserted. -/
theorem etlLoop_durable (fetch : Nat → Option Json) (bs ci start_ end_ : Nat) :
    ∀ fuel slot batch acc t, slot + fuel = end_ → 1 ≤ end_ → start_ ≤ slot →
      etlLoop fetch (fun _ => false) bs ci start_ end_ fuel slot batch = some t →
      acc ++ batch = rangeEvents fetch start_ (slot - start_) →
      cursorsDurable fetch start_ acc t := by
  intro fuel
  induction fuel with
  | zero =>
    intro slot batch acc t hinv hend hstart ht hacc
    rw [etlLoop_end fetch (fun _ => false) bs ci start_ end_ 0 slot batch (Or.inr rfl)] at ht
    obtain rfl : maybeFlush batch ++ [Op.cursor (end_ - 1)] = t := by simpa using ht
    rw [cursorsDurable_maybeFlush]
    refine ⟨?_, trivial⟩
    rw [hacc, show end_ - 1 + 1 - start_ = slot - start_ from by omega]
  | succ n ih =>
    intro slot batch acc t hinv hend hstart ht hacc
    have h1 : slot < end_ := by omega
    have hnext : acc ++ batch ++ slotEvents (fetch slot) slot =
        rangeEvents fetch start_ (slot + 1 - start_) := by
      rw [show slot + 1 - start_ = (slot - start_) + 1 from by omega,
        rangeEvents_succ_right, show start_ + (slot - start_) = slot from by omega,
        ← hacc, List.append_assoc]
    by_cases hci : ci = 0
    · subst hci
      rw [etlLoop_panic fetch (fun _ => false) bs start_ end_ n slot batch h1 rfl] at ht
      exact absurd ht (by simp)
    · rcases fetchPhase_spec bs (fetch slot) slot batch with hfp | hfp
      · -- no flush: the batch grows by the slot's events
        by_cases hr : (slot + 1 - start_) % ci = 0
        · rw [etlLoop_checkpoint fetch (fun _ => false) bs ci start_ end_ n slot batch
            (batch ++ slotEvents (fetch slot) slot) [] h1 rfl hfp hci hr] at ht
          cases hrec : etlLoop fetch (fun _ => false) bs ci start_ end_ n (slot + 1) [] with
          | none => rw [hrec] at ht; exact absurd ht (by simp)
          | some rest =>
            rw [hrec] at ht
            obtain rfl : maybeFlush (batch ++ slotEvents (fetch slot) slot) ++
                Op.cursor slot :: rest = t := by simpa using ht
            rw [cursorsDurable_maybeFlush]
            refine ⟨?_, ?_⟩
            · rw [← List.append_assoc, hnext]
            · exact ih (slot + 1) [] _ rest (by omega) hend (by omega) hrec
                (by rw [List.append_nil, ← List.append_assoc, hnext])
        · rw [etlLoop_step fetch (fun _ => false) bs ci start_ end_ n slot batch
            (batch ++ slotEvents (fetch slot) slot) [] h1 rfl hfp hci hr] at ht
          cases hrec : etlLoop fetch (fun _ => false) bs ci start_ end_ n (slot + 1)
              (batch ++ slotEvents (fetch slot) slot) with
          | none => rw [hrec] at ht; exact absurd ht (by simp)
          | some rest =>
            rw [hrec] at ht
            obtain rfl : rest = t := by simpa using ht
            exact ih (slot + 1) _ acc rest (by omega) hend (by omega) hrec
              (by rw [← List.append_assoc, hnext])
      · -- flush: the extended batch is inserted at once
        by_cases hr : (slot + 1 - start_) % ci = 0
        · rw [etlLoop_checkpoint fetch (fun _ => false) bs ci start_ end_ n slot batch []
            [Op.insert (batch ++ slotEvents (fetch slot) slot)] h1 rfl hfp hci hr] at ht
          cases hrec : etlLoop fetch (fun _ => false) bs ci start_ end_ n (slot + 1) [] with
          | none => rw [hrec] at ht; exact absurd ht (by simp)
          | some rest =>
            rw [hrec] at ht
            obtain rfl : Op.insert (batch ++ slotEvents (fetch slot) slot) ::
                (maybeFlush [] ++ Op.cursor slot :: rest) = t := by simpa using ht
            rw [show maybeFlush [] = [] from rfl, List.nil_append]
            refine ⟨?_, ?_⟩
            · rw [← List.append_assoc, hnext]
            · exact ih (slot + 1) [] _ rest (by omega) hend (by omega) hrec
                (by rw [List.append_nil, ← List.append_assoc, hnext])
        · rw [etlLoop_step fetch (fun _ => false) bs ci start_ end_ n slot batch []
            [Op.insert (batch ++ slotEvents (fetch slot) slot)] h1 rfl hfp hci hr] at ht
          cases hrec : etlLoop fetch (fun _ => false) bs ci start_ end_ n (slot + 1) [] with
          | none => rw [hrec] at ht; exact absurd ht (by simp)
          | some rest =>
            rw [hrec] at ht
            obtain rfl : Op.insert (batch ++ slotEvents (fetch slot) slot) :: rest = t := by
              simpa using ht
            show cursorsDurable fetch start_ (acc ++ (batch ++ slotEvents (fetch slot) slot)) rest
            exact ih (slot + 1) [] _ rest (by omega) hend (by omega) hrec
              (by rw [List.append_nil, ← List.append_assoc, hnext])

/-- The events inserted over a full (skip-free) run are exactly the events
of the covered slot range, prefixed by whatever batch was pending. -/
theorem etlLoop_inserted (fetch : Nat → Option Json) (bs ci start_ end_ : Nat) :
    ∀ fuel slot batch t, slot + fuel = end_ →
      etlLoop fetch (fun _ => false) bs ci start_ end_ fuel slot batch = some t →
      insertedEvents t = batch ++ rangeEvents fetch slot fuel := by
  intro fuel
  induction fuel with
  | zero =>
    intro slot batch t hinv ht
    rw [etlLoop_end fetch (fun _ => false) bs ci start_ end_ 0 slot batch (Or.inr rfl)] at ht
    obtain rfl : maybeFlush batch ++ [Op.cursor (end_ - 1)] = t := by simpa using ht
    rw [insertedEvents_append, insertedEvents_maybeFlush]
    simp [insertedEvents, rangeEvents_zero]
  | succ n ih =>
    intro slot batch t hinv ht
    have h1 : slot < end_ := by omega
    by_cases hci : ci = 0
    · subst hci
      rw [etlLoop_panic fetch (fun _ => false) bs start_ end_ n slot batch h1 rfl] at ht
      exact absurd ht (by simp)
    · rcases fetchPhase_spec bs (fetch slot) slot batch with hfp | hfp
      · by_cases hr : (slot + 1 - start_) % ci = 0
        · rw [etlLoop_checkpoint fetch (fun _ => false) bs ci start_ end_ n slot batch
            (batch ++ slotEvents (fetch slot) slot) [] h1 rfl hfp hci hr] at ht
          cases hrec : etlLoop fetch (fun _ => false) bs ci start_ end_ n (slot + 1) [] with
          | none => rw [hrec] at ht; exact absurd ht (by simp)
          | some rest =>
            rw [hrec] at ht
            obtain rfl : maybeFlush (batch ++ slotEvents (fetch slot) slot) ++
                Op.cursor slot :: rest = t := by simpa using ht
            rw [insertedEvents_append, insertedEvents_maybeFlush]
            have := ih (slot + 1) [] rest (by omega) hrec
            simp only [insertedEvents, List.nil_append] at this ⊢
            rw [this, rangeEvents_succ_left, List.append_assoc]
        · rw [etlLoop_step fetch (fun _ => false) bs ci start_ end_ n slot batch
            (batch ++ slotEvents (fetch slot) slot) [] h1 rfl hfp hci hr] at ht
          cases hrec : etlLoop fetch (fun _ => false) bs ci start_ end_ n (slot + 1)
              (batch ++ slotEvents (fetch slot) slot) with
          | none => rw [hrec] at ht; exact absurd ht (by simp)
          | some rest =>
            rw [hrec] at ht
            obtain rfl : rest = t := by simpa using ht
            rw [ih (slot + 1) _ rest (by omega) hrec, rangeEvents_succ_left,
              List.append_assoc]
      · by_cases hr : (slot + 1 - start_) % ci = 0
        · rw [etlLoop_checkpoint fetch (fun _ => false) bs ci start_ end_ n slot batch []
            [Op.insert (batch ++ slotEvents (fetch slot) slot)] h1 rfl hfp hci hr] at ht
          cases hrec : etlLoop fetch (fun _ => false) bs ci start_ end_ n (slot + 1) [] with
          | none => rw [hrec] at ht; exact absurd ht (by simp)
          | some rest =>
            rw [hrec] at ht
            obtain rfl : Op.insert (batch ++ slotEvents (fetch slot) slot) ::
                (maybeFlush [] ++ Op.cursor slot :: rest) = t := by simpa using ht
            have := ih (slot + 1) [] rest (by omega) hrec
            simp only [insertedEvents, List.nil_append,
              show maybeFlush [] = [] from rfl] at this ⊢
            rw [this, rangeEvents_succ_left, List.append_assoc]
        · rw [etlLoop_step fetch (fun _ => false) bs ci start_ end_ n slot batch []
            [Op.insert (batch ++ slotEvents (fetch slot) slot)] h1 rfl hfp hci hr] at ht
          cases hrec : etlLoop fetch (fun _ => false) bs ci start_ end_ n (slot + 1) [] with
          | none => rw [hrec] at ht; exact absurd ht (by simp)
          | some rest =>
            rw [hrec] at ht
            obtain rfl : Op.insert (batch ++ slotEvents (fetch slot) slot) :: rest = t := by
              simpa using ht
            have := ih (slot + 1) [] rest (by omega) hrec
            simp only [insertedEvents, List.nil_append] at this ⊢
            rw [this, rangeEvents_succ_left, List.append_assoc]

/-! ## Claim C1: cursor monotonicity and durability -/
/-- C1 (amended): under a positive checkpoint interval, the cursor writes of
one incremental cycle and of each backfill chunk taken in isolation are
non-decreasing, stay within the processed range, and (absent
is_slot_processed skips) each write of value c happens only after the
events of every slot up to and including c have been inserted.  The
original claim additionally covered runs with multiple concurrent chunks,
which is refuted by c1_backfill_interleaving_counterexample. -/
theorem c1_cursor_monotone_and_durable
    (fetch : Nat → Option Json) (processedQ : Nat → Bool)
    (bs ci start_slot end_slot : Nat) (lastOpt : Option Nat) (tip : Nat)
    (hci : 1 ≤ ci) (hrange : start_slot < end_slot) (htip : lastOpt.getD 0 < tip) :
    (∃ t, processChunkModel fetch processedQ bs ci start_slot end_slot = some t ∧
        List.Chain' (· ≤ ·) (cursorVals t) ∧
        ∀ c ∈ cursorVals t, start_slot ≤ c ∧ c ≤ end_slot - 1) ∧
    (∃ t, processChunkModel fetch (fun _ => false) bs ci start_slot end_slot = some t ∧
        cursorsDurable fetch start_slot [] t) ∧
    (∃ t, processIncrementalModel fetch bs ci lastOpt tip = some t ∧
        List.Chain' (· ≤ ·) (cursorVals t) ∧
        (∀ c ∈ cursorVals t, lastOpt.getD 0 + 1 ≤ c ∧ c ≤ tip) ∧
        cursorsDurable fetch (lastOpt.getD 0 + 1) [] t) := by
  refine ⟨?_, ?_, ?_⟩
  · obtain ⟨t, ht⟩ := etlLoop_total fetch processedQ bs ci start_slot end_slot hci
      (end_slot - start_slot) start_slot []
    have hs := etlLoop_cursor_sorted fetch processedQ bs ci start_slot end_slot
      (end_slot - start_slot) start_slot [] t (by omega) (by omega) ht
    refine ⟨t, ht, hs.2, fun c hc => ?_⟩
    have := hs.1 c hc
    omega
  · obtain ⟨t, ht⟩ := etlLoop_total fetch (fun _ => false) bs ci start_slot end_slot hci
      (end_slot - start_slot) start_slot []
    exact ⟨t, ht, etlLoop_durable fetch bs ci start_slot end_slot
      (end_slot - start_slot) start_slot [] [] t (by omega) (by omega) le_rfl ht
      (by simp [Nat.sub_self, rangeEvents_zero])⟩
  · have hlt : ¬ tip ≤ lastOpt.getD 0 := by omega
    obtain ⟨t, ht⟩ := etlLoop_total fetch (fun _ => false) bs ci (lastOpt.getD 0 + 1)
      (tip + 1) hci (tip + 1 - (lastOpt.getD 0 + 1)) (lastOpt.getD 0 + 1) []
    have hs := etlLoop_cursor_sorted fetch (fun _ => false) bs ci (lastOpt.getD 0 + 1)
      (tip + 1) (tip + 1 - (lastOpt.getD 0 + 1)) (lastOpt.getD 0 + 1) [] t
      (by omega) (by omega) ht
    have hd := etlLoop_durable fetch bs ci (lastOpt.getD 0 + 1) (tip + 1)
      (tip + 1 - (lastOpt.getD 0 + 1)) (lastOpt.getD 0 + 1) [] [] t
      (by omega) (by omega) le_rfl ht (by simp [Nat.sub_self, rangeEvents_zero])
    refine ⟨t, ?_, hs.2, fun c hc => ?_, hd⟩
    · simp only [processIncrementalModel, if_neg hlt]
      exact ht
    · have := hs.1 c hc
      omega

theorem c1_cursor_monotone_and_durable_witness :
    (1 : Nat) ≤ 1 ∧ (0 : Nat) < 2 ∧ (none : Option Nat).getD 0 < 2 ∧
    ((∃ t, processChunkModel (fun _ => none) (fun _ => true) 1 1 0 2 = some t ∧
        List.Chain' (· ≤ ·) (cursorVals t) ∧
        ∀ c ∈ cursorVals t, 0 ≤ c ∧ c ≤ 2 - 1) ∧
    (∃ t, processChunkModel (fun _ => none) (fun _ => false) 1 1 0 2 = some t ∧
        cursorsDurable (fun _ => none) 0 [] t) ∧
    (∃ t, processIncrementalModel (fun _ => none) 1 1 none 2 = some t ∧
        List.Chain' (· ≤ ·) (cursorVals t) ∧
        (∀ c ∈ cursorVals t, (none : Option Nat).getD 0 + 1 ≤ c ∧ c ≤ 2) ∧
        cursorsDurable (fun _ => none) ((none : Option Nat).getD 0 + 1) [] t)) :=
  ⟨le_rfl, by omega, by simp,
    c1_cursor_monotone_and_durable (fun _ => none) (fun _ => true) 1 1 0 2 none 2
      le_rfl (by omega) (by simp)⟩

/-- C1 (counterexample to the original claim): two backfill chunks running
concurrently each write their own checkpoints to the shared cursor; the
interleaving where the second chunk checkpoints first yields a cursor
write sequence 2, 0, 1, 1, 3, 3, which is not monotonically
non-decreasing (and its first write covers slots 0..2 before any events of
slots 0..1 could have been written by the first chunk). -/
theorem c1_backfill_interleaving_counterexample :
    processChunkModel (fun _ => none) (fun _ => false) 1 1 0 2 =
      some [Op.cursor 0, Op.cursor 1, Op.cursor 1] ∧
    processChunkModel (fun _ => none) (fun _ => false) 1 1 2 4 =
      some [Op.cursor 2, Op.cursor 3, Op.cursor 3] ∧
    cursorVals [Op.cursor 0, Op.cursor 1, Op.cursor 1] = [0, 1, 1] ∧
    cursorVals [Op.cursor 2, Op.cursor 3, Op.cursor 3] = [2, 3, 3] ∧
    Interleaving [2, 3, 3] [0, 1, 1] [2, 0, 1, 1, 3, 3] ∧
    ¬ List.Chain' (· ≤ ·) [2, 0, 1, 1, 3, 3] := by
  refine ⟨rfl, rfl, rfl, rfl, ?_, fun h => by have := (List.chain'_cons.mp h).1; omega⟩
  exact .left (.right (.right (.right (.left (.left .nil)))))

/-! ## Claim C6: null blocks are skipped, not errors -/
/-- C6: get_block turns a null RPC result into Ok(None), which is not an
error; a null block contributes zero events, leaves the batch untouched and
issues no warehouse operation; and a full skip-free run still completes,
its inserted events being exactly the events of the range (so null slots
contribute nothing and processing continues past them). -/
theorem c6_null_block_skipped :
    (∀ e : RpcErrorInfo, get_block_model (.ok Json.null) = Except.ok none ∧
        get_block_model (.ok Json.null) ≠ Except.error e) ∧
    (∀ slot, slotEvents none slot = []) ∧
    (∀ bs slot batch, fetchPhase bs none slot batch = ([], batch)) ∧
    (∀ fetch bs ci start_slot end_slot, 1 ≤ ci → start_slot < end_slot →
      ∃ t, processChunkModel fetch (fun _ => false) bs ci start_slot end_slot = some t ∧
        insertedEvents t = rangeEvents fetch start_slot (end_slot - start_slot)) := by
  refine ⟨fun e => ⟨rfl, by simp [get_block_model, Json.isNull]⟩,
    fun slot => rfl, fun bs slot batch => rfl, fun fetch bs ci s e hci hlt => ?_⟩
  obtain ⟨t, ht⟩ := etlLoop_total fetch (fun _ => false) bs ci s e hci (e - s) s []
  exact ⟨t, ht, by simpa using etlLoop_inserted fetch bs ci s e (e - s) s [] t (by omega) ht⟩

theorem c6_null_block_skipped_witness :
    (1 : Nat) ≤ 1 ∧ (5 : Nat) < 7 ∧
    (∃ t, processChunkModel (fun _ => none) (fun _ => false) 10 1 5 7 = some t ∧
      insertedEvents t = rangeEvents (fun _ => none) 5 (7 - 5)) :=
  ⟨le_rfl, by omega,
    c6_null_block_skipped.2.2.2 (fun _ => none) 10 1 5 7 le_rfl (by omega)⟩

/-! ## Claim C9: checkpoint arithmetic is total only for interval at least 1 -/
/-- C9: the checkpoint computation (slot - start) % checkpoint_interval
panics (division by zero) whenever checkpoint_interval = 0 and at least one
slot is processed, for both orchestrators; with checkpoint_interval at
least 1 both loops are total on every input. -/
theorem c9_checkpoint_interval_totality :
    (∀ (fetch : Nat → Option Json) (bs : Nat) (lastOpt : Option Nat) (tip : Nat),
        lastOpt.getD 0 < tip →
        processIncrementalModel fetch bs 0 lastOpt tip = none) ∧
    (∀ (fetch : Nat → Option Json) (bs start_slot end_slot : Nat),
        start_slot < end_slot →
        processChunkModel fetch (fun _ => false) bs 0 start_slot end_slot = none) ∧
    (∀ (fetch : Nat → Option Json) (processedQ : Nat → Bool)
        (bs ci start_slot end_slot : Nat), 1 ≤ ci →
        ∃ t, processChunkModel fetch processedQ bs ci start_slot end_slot = some t) ∧
    (∀ (fetch : Nat → Option Json) (bs ci : Nat) (lastOpt : Option Nat) (tip : Nat),
        1 ≤ ci →
        ∃ t, processIncrementalModel fetch bs ci lastOpt tip = some t) := by
  refine ⟨fun fetch bs lastOpt tip htip => ?_, fun fetch bs s e hlt => ?_,
    fun fetch processedQ bs ci s e hci => ?_, fun fetch bs ci lastOpt tip hci => ?_⟩
  · have hlt : ¬ tip ≤ lastOpt.getD 0 := by omega
    obtain ⟨n, hn⟩ : ∃ n, tip + 1 - (lastOpt.getD 0 + 1) = n + 1 := ⟨tip - lastOpt.getD 0 - 1, by omega⟩
    simp only [processIncrementalModel, if_neg hlt, hn]
    exact etlLoop_panic fetch (fun _ => false) bs (lastOpt.getD 0 + 1) (tip + 1) n
      (lastOpt.getD 0 + 1) [] (by omega) rfl
  · obtain ⟨n, hn⟩ : ∃ n, e - s = n + 1 := ⟨e - s - 1, by omega⟩
    rw [processChunkModel, hn]
    exact etlLoop_panic fetch (fun _ => false) bs s e n s [] hlt rfl
  · exact etlLoop_total fetch processedQ bs ci s e hci (e - s) s []
  · by_cases htip : tip ≤ lastOpt.getD 0
    · exact ⟨[], by simp [processIncrementalModel, htip]⟩
    · obtain ⟨t, ht⟩ := etlLoop_total fetch (fun _ => false) bs ci (lastOpt.getD 0 + 1)
        (tip + 1) hci (tip + 1 - (lastOpt.getD 0 + 1)) (lastOpt.getD 0 + 1) []
      exact ⟨t, by simp only [processIncrementalModel, if_neg htip]; exact ht⟩

theorem c9_checkpoint_interval_totality_witness :
    (none : Option Nat).getD 0 < 3 ∧ (0 : Nat) < 2 ∧ (1 : Nat) ≤ 1 ∧
    processIncrementalModel (fun _ => none) 1 0 none 3 = none ∧
    processChunkModel (fun _ => none) (fun _ => false) 1 0 0 2 = none ∧
    (∃ t, processChunkModel (fun _ => none) (fun _ => false) 1 1 0 2 = some t) ∧
    (∃ t, processIncrementalModel (fun _ => none) 1 1 none 3 = some t) :=
  ⟨by simp, by omega, le_rfl,
    c9_checkpoint_interval_totality.1 (fun _ => none) 1 none 3 (by simp),
    c9_checkpoint_interval_totality.2.1 (fun _ => none) 1 0 2 (by omega),
    c9_checkpoint_interval_totality.2.2.1 (fun _ => none) (fun _ => false) 1 1 0 2 le_rfl,
    c9_checkpoint_interval_totality.2.2.2 (fun _ => none) 1 1 none 3 le_rfl⟩

/-! ## Claim C2: chunk partition of the backfill range -/
theorem stepByGo_fuel_irrel (step : Nat) (hstep : 1 ≤ step) :
    ∀ f1 f2 cur stop, stop - cur ≤ f1 → stop - cur ≤ f2 →
      stepByGo step f1 cur stop = stepByGo step f2 cur stop := by
  intro f1
  induction f1 with
  | zero =>
    intro f2 cur stop h1 h2
    have hc : ¬ cur < stop := by omega
    cases f2 with
    | zero => rfl
    | succ m => simp [stepByGo, hc]
  | succ n ih =>
    intro f2 cur stop h1 h2
    cases f2 with
    | zero =>
      have hc : ¬ cur < stop := by omega
      simp [stepByGo, hc]
    | succ m =>
      by_cases hc : cur < stop
      · simp only [stepByGo, if_pos hc]
        exact congrArg (cur :: ·) (ih m (cur + step) stop (by omega) (by omega))
      · simp [stepByGo, hc]

theorem rangeStepBy_cons (cur stop step : Nat) (hc : cur < stop) (hstep : 1 ≤ step) :
    rangeStepBy cur stop step = cur :: rangeStepBy (cur + step) stop step := by
  obtain ⟨m, hm⟩ : ∃ m, stop - cur = m + 1 := ⟨stop - cur - 1, by omega⟩
  rw [rangeStepBy, hm]
  simp only [stepByGo, if_pos hc]
  exact congrArg (cur :: ·)
    (stepByGo_fuel_irrel step hstep m (stop - (cur + step)) (cur + step) stop
      (by omega) le_rfl)

theorem rangeStepBy_nil (cur stop step : Nat) (hc : ¬ cur < stop) :
    rangeStepBy cur stop step = [] := by
  have : stop - cur = 0 := by omega
  rw [rangeStepBy, this]
  rfl

theorem backfillChunks_cons (S E C : Nat) (hS : S < E) (hC : 1 ≤ C) :
    backfillChunks S E C =
      (S, min (S + C) E) :: backfillChunks (S + C) E C := by
  rw [backfillChunks, rangeStepBy_cons S E C hS hC]
  rfl

theorem backfillChunks_nil (S E C : Nat) (hS : ¬ S < E) :
    backfillChunks S E C = [] := by
  rw [backfillChunks, rangeStepBy_nil S E C hS]
  rfl

theorem listGetLastCons {α : Type} (a : α) (l : List α) (h : l ≠ []) :
    (a :: l).getLast? = l.getLast? := by
  cases l with
  | nil => exact absurd rfl h
  | cons b t => simp [List.getLast?]

/-- All the structural facts about the chunk list at once, proved by
induction on the range width. -/
theorem backfillChunks_spec (E C : Nat) (hC : 1 ≤ C) :
    ∀ k S, E - S ≤ k → S < E →
      (backfillChunks S E C).head? = some (S, min (S + C) E) ∧
      List.Chain' (fun a b => a.2 = b.1) (backfillChunks S E C) ∧
      (∀ p ∈ backfillChunks S E C, S ≤ p.1 ∧ p.1 < p.2 ∧ p.2 ≤ E) ∧
      (∀ p ∈ (backfillChunks S E C).dropLast, p.2 = p.1 + C) ∧
      (∃ q, (backfillChunks S E C).getLast? = some q ∧ q.2 = E) ∧
      (∀ x, (S ≤ x ∧ x < E) ↔ ∃ p ∈ backfillChunks S E C, p.1 ≤ x ∧ x < p.2) ∧
      List.Pairwise (fun a b => a.2 ≤ b.1) (backfillChunks S E C) := by
  intro k
  induction k with
  | zero => intro S hk hS; omega
  | succ n ih =>
    intro S hk hS
    rw [backfillChunks_cons S E C hS hC]
    by_cases hlast : E ≤ S + C
    · have hmin : min (S + C) E = E := by omega
      rw [backfillChunks_nil (S + C) E C (by omega), hmin]
      refine ⟨rfl, List.chain'_singleton _, ?_, ?_, ⟨(S, E), rfl, rfl⟩, ?_, ?_⟩
      · intro p hp
        rcases List.mem_singleton.mp hp with rfl
        exact ⟨le_rfl, hS, le_rfl⟩
      · intro p hp
        simp at hp
      · intro x
        constructor
        · intro hx
          exact ⟨(S, E), List.mem_singleton_self _, hx.1, hx.2⟩
        · rintro ⟨p, hp, hx1, hx2⟩
          rcases List.mem_singleton.mp hp with rfl
          exact ⟨hx1, hx2⟩
      · exact List.pairwise_singleton _ _
    · have hmin : min (S + C) E = S + C := by omega
      rw [hmin]
      have hS' : S + C < E := by omega
      obtain ⟨ihead, ichain, ibounds, ilen, ⟨q, iq, iqE⟩, icover, idisj⟩ :=
        ih (S + C) (by omega) hS'
      have hne : backfillChunks (S + C) E C ≠ [] := by
        intro h
        rw [h] at ihead
        exact absurd ihead (by simp)
      refine ⟨rfl, ?_, ?_, ?_, ?_, ?_, ?_⟩
      · rw [List.chain'_cons']
        refine ⟨fun y hy => ?_, ichain⟩
        rw [ihead] at hy
        have hy' : (S + C, min (S + C + C) E) = y := by simpa using hy
        show (S, S + C).2 = y.1
        rw [← hy']
      · intro p hp
        rcases List.mem_cons.mp hp with rfl | hp
        · exact ⟨le_rfl, by omega, by omega⟩
        · have := ibounds p hp
          omega
      · intro p hp
        rw [List.dropLast_cons_of_ne_nil hne] at hp
        rcases List.mem_cons.mp hp with rfl | hp
        · rfl
        · exact ilen p hp
      · refine ⟨q, ?_, iqE⟩
        rw [listGetLastCons _ _ hne]
        exact iq
      · intro x
        constructor
        · intro hx
          by_cases hx2 : x < S + C
          · exact ⟨(S, S + C), List.mem_cons_self _ _, hx.1, hx2⟩
          · obtain ⟨p, hp, h1, h2⟩ := (icover x).mp ⟨by omega, hx.2⟩
            exact ⟨p, List.mem_cons_of_mem _ hp, h1, h2⟩
        · rintro ⟨p, hp, h1, h2⟩
          rcases List.mem_cons.mp hp with rfl | hp
          · exact ⟨h1, by omega⟩
          · have := ibounds p hp
            omega
      · rw [List.pairwise_cons]
        refine ⟨fun p hp => ?_, idisj⟩
        have := ibounds p hp
        omega

/-- C2: for a backfill over [S, E) with S < E and chunk size C at least 1,
the chunk list starts at S, consecutive chunks are adjacent, every chunk is
a non-empty subrange of [S, E), every chunk but the last has length exactly
C, the final chunk ends at E, the chunks cover exactly the slots of [S, E),
and they are pairwise non-overlapping. -/
theorem c2_chunk_partition (S E C : Nat) (hS : S < E) (hC : 1 ≤ C) :
    (backfillChunks S E C).head? = some (S, min (S + C) E) ∧
    List.Chain' (fun a b => a.2 = b.1) (backfillChunks S E C) ∧
    (∀ p ∈ backfillChunks S E C, S ≤ p.1 ∧ p.1 < p.2 ∧ p.2 ≤ E) ∧
    (∀ p ∈ (backfillChunks S E C).dropLast, p.2 = p.1 + C) ∧
    (∃ q, (backfillChunks S E C).getLast? = some q ∧ q.2 = E) ∧
    (∀ x, (S ≤ x ∧ x < E) ↔ ∃ p ∈ backfillChunks S E C, p.1 ≤ x ∧ x < p.2) ∧
    List.Pairwise (fun a b => a.2 ≤ b.1) (backfillChunks S E C) :=
  backfillChunks_spec E C hC (E - S) S le_rfl hS

theorem c2_chunk_partition_witness :
    (100 : Nat) < 1050 ∧ (1 : Nat) ≤ 200 ∧
    ((backfillChunks 100 1050 200).head? = some (100, min (100 + 200) 1050) ∧
    List.Chain' (fun a b => a.2 = b.1) (backfillChunks 100 1050 200) ∧
    (∀ p ∈ backfillChunks 100 1050 200, 100 ≤ p.1 ∧ p.1 < p.2 ∧ p.2 ≤ 1050) ∧
    (∀ p ∈ (backfillChunks 100 1050 200).dropLast, p.2 = p.1 + 200) ∧
    (∃ q, (backfillChunks 100 1050 200).getLast? = some q ∧ q.2 = 1050) ∧
    (∀ x, (100 ≤ x ∧ x < 1050) ↔ ∃ p ∈ backfillChunks 100 1050 200, p.1 ≤ x ∧ x < p.2) ∧
    List.Pairwise (fun a b => a.2 ≤ b.1) (backfillChunks 100 1050 200)) :=
  ⟨by omega, by omega, c2_chunk_partition 100 1050 200 (by omega) (by omega)⟩

/-! ## Claim C5: retry policy of the RPC client -/
theorem rpc_call_go_success (attempts : Nat → AttemptResult) (rem r : Nat) (v : Json)
    (ha : attempts r = .success v) :
    rpc_call_go attempts rem r = (.ok v, []) := by
  cases rem <;> rw [rpc_call_go, ha]

theorem rpc_call_go_failure_zero (attempts : Nat → AttemptResult) (r : Nat)
    (e : RpcErrorInfo) (ha : attempts r = .failure e) :
    rpc_call_go attempts 0 r = (.error e, []) := by
  rw [rpc_call_go, ha]

theorem rpc_call_go_failure_retry (attempts : Nat → AttemptResult) (rem r : Nat)
    (e : RpcErrorInfo) (ha : attempts r = .failure e)
    (hr : retryableCode e.code = true) :
    rpc_call_go attempts (rem + 1) r =
      ((rpc_call_go attempts rem (r + 1)).1,
        2 ^ r :: (rpc_call_go attempts rem (r + 1)).2) := by
  rw [rpc_call_go, ha]
  simp [hr]

theorem rpc_call_go_failure_stop (attempts : Nat → AttemptResult) (rem r : Nat)
    (e : RpcErrorInfo) (ha : attempts r = .failure e)
    (hr : retryableCode e.code = false) :
    rpc_call_go attempts (rem + 1) r = (.error e, []) := by
  rw [rpc_call_go, ha]
  simp [hr]

theorem rpc_call_go_all_retryable (attempts : Nat → AttemptResult)
    (errs : Nat → RpcErrorInfo) :
    ∀ rem r,
      (∀ k, r ≤ k → k ≤ r + rem →
        attempts k = .failure (errs k) ∧ retryableCode (errs k).code = true) →
      rpc_call_go attempts rem r =
        (.error (errs (r + rem)), (List.range' r rem).map (2 ^ ·)) := by
  intro rem
  induction rem with
  | zero =>
    intro r h
    obtain ⟨ha, hr⟩ := h r le_rfl (by omega)
    rw [rpc_call_go_failure_zero attempts r (errs r) ha]
    simp
  | succ n ih =>
    intro r h
    obtain ⟨ha, hr⟩ := h r le_rfl (by omega)
    have hrec := ih (r + 1) (fun k h1 h2 => h k (by omega) (by omega))
    rw [rpc_call_go_failure_retry attempts n r (errs r) ha hr, hrec,
      show r + 1 + n = r + (n + 1) from by omega, List.range'_succ]
    simp

/-- C5: through the retry loop of rpc_call, a run of retryable responses
(429 or 5xx) is retried with backoff delays 2^0, 2^1, ... seconds until
max_retries retries have been used, after which the error is returned;
a non-retryable error code fails on the very first attempt with no backoff;
no run ever sleeps more than max_retries backoffs; and an error code is
retryable exactly when it is 429 or in the 5xx range. -/
theorem c5_rpc_retry_policy :
    (∀ (attempts : Nat → AttemptResult) (errs : Nat → RpcErrorInfo) (max_retries : Nat),
      (∀ k, k ≤ max_retries →
        attempts k = .failure (errs k) ∧ retryableCode (errs k).code = true) →
      rpc_call_model attempts max_retries =
        (.error (errs max_retries), (List.range max_retries).map (2 ^ ·))) ∧
    (∀ (attempts : Nat → AttemptResult) (e : RpcErrorInfo) (max_retries : Nat),
      attempts 0 = .failure e → retryableCode e.code = false →
      rpc_call_model attempts max_retries = (.error e, [])) ∧
    (∀ (attempts : Nat → AttemptResult) (max_retries : Nat), ∃ n, n ≤ max_retries ∧
      (rpc_call_model attempts max_retries).2 = (List.range n).map (2 ^ ·)) ∧
    (∀ code : Int, retryableCode code = true ↔ (code = 429 ∨ (500 ≤ code ∧ code < 600))) := by
  refine ⟨?_, ?_, ?_, ?_⟩
  · intro attempts errs max_retries h
    have := rpc_call_go_all_retryable attempts errs max_retries 0
      (fun k h1 h2 => h k (by omega))
    simpa [rpc_call_model, List.range_eq_range'] using this
  · intro attempts e max_retries ha hr
    cases max_retries with
    | zero => rw [rpc_call_model, rpc_call_go_failure_zero attempts 0 e ha]
    | succ n => rw [rpc_call_model, rpc_call_go_failure_stop attempts n 0 e ha hr]
  · intro attempts max_retries
    suffices h : ∀ rem r, ∃ n, n ≤ rem ∧
        (rpc_call_go attempts rem r).2 = (List.range' r n).map (2 ^ ·) by
      obtain ⟨n, hn, he⟩ := h max_retries 0
      exact ⟨n, hn, by rw [rpc_call_model, he, List.range_eq_range']⟩
    intro rem
    induction rem with
    | zero =>
      intro r
      refine ⟨0, le_rfl, ?_⟩
      cases ha : attempts r with
      | success v => rw [rpc_call_go_success attempts 0 r v ha]; rfl
      | failure e => rw [rpc_call_go_failure_zero attempts r e ha]; rfl
    | succ m ih =>
      intro r
      cases ha : attempts r with
      | success v =>
        exact ⟨0, by omega, by rw [rpc_call_go_success attempts (m + 1) r v ha]; rfl⟩
      | failure e =>
        cases hr : retryableCode e.code with
        | false =>
          exact ⟨0, by omega, by rw [rpc_call_go_failure_stop attempts m r e ha hr]; rfl⟩
        | true =>
          obtain ⟨n, hn, he⟩ := ih (r + 1)
          refine ⟨n + 1, by omega, ?_⟩
          rw [rpc_call_go_failure_retry attempts m r e ha hr, List.range'_succ]
          simpa using he
  · intro code
    simp only [retryableCode, Bool.or_eq_true, Bool.and_eq_true, beq_iff_eq,
      decide_eq_true_eq]

theorem c5_rpc_retry_policy_witness :
    (∀ k, k ≤ 2 →
      (fun _ => AttemptResult.failure ⟨429, "rate limited"⟩) k =
        .failure ((fun _ => (⟨429, "rate limited"⟩ : RpcErrorInfo)) k) ∧
      retryableCode ((fun _ => (⟨429, "rate limited"⟩ : RpcErrorInfo)) k).code = true) ∧
    rpc_call_model (fun _ => AttemptResult.failure ⟨429, "rate limited"⟩) 2 =
      (.error ⟨429, "rate limited"⟩, (List.range 2).map (2 ^ ·)) ∧
    (fun _ => AttemptResult.failure ⟨404, "not found"⟩) 0 = .failure ⟨404, "not found"⟩ ∧
    retryableCode (404 : Int) = false ∧
    rpc_call_model (fun _ => AttemptResult.failure ⟨404, "not found"⟩) 5 =
      (.error ⟨404, "not found"⟩, []) :=
  ⟨fun k _ => ⟨rfl, rfl⟩,
    c5_rpc_retry_policy.1 (fun _ => .failure ⟨429, "rate limited"⟩)
      (fun _ => ⟨429, "rate limited"⟩) 2 (fun k _ => ⟨rfl, rfl⟩),
    rfl, rfl,
    c5_rpc_retry_policy.2.1 (fun _ => .failure ⟨404, "not found"⟩) ⟨404, "not found"⟩ 5
      rfl rfl⟩

theorem setPayload_setPayload (r : EventRow) (p1 p2 : Json) :
    setPayload (setPayload r p1) p2 = setPayload r p2 := rfl

theorem setPayload_raw_payload (r : EventRow) (pl : Json) :
    (setPayload r pl).raw_payload = pl := rfl

theorem setPayload_of_eq (r : EventRow) (pl : Json) (h : r.raw_payload = pl) :
    setPayload r pl = r := by
  obtain ⟨s0, t0, sig0, pid0, ii0, ty0, pl0⟩ := r
  simp only [setPayload]
  simp only at h
  rw [h]

theorem writePayload_cons (k0 : String) (r0 : EventRow) (t : Store) (k : String) (pl : Json) :
    writePayload ((k0, r0) :: t) k pl =
      (if k0 = k then (k0, setPayload r0 pl) else (k0, r0)) :: writePayload t k pl := by
  by_cases h : k0 = k <;> simp [writePayload, h]

theorem storeAny_iff (st : Store) (k : String) :
    st.any (fun p => p.1 = k) = true ↔ k ∈ storeKeys st := by
  rw [List.any_eq_true]
  constructor
  · rintro ⟨p, hp, hpk⟩
    exact List.mem_map.mpr ⟨p, hp, by simpa using hpk⟩
  · rintro hk
    obtain ⟨p, hp, hpk⟩ := List.mem_map.mp hk
    exact ⟨p, hp, by simpa using hpk⟩

theorem upsertRow_of_mem (st : Store) (k : String) (r : EventRow)
    (h : k ∈ storeKeys st) :
    upsertRow st k r = writePayload st k r.raw_payload := by
  rw [upsertRow, if_pos ((storeAny_iff st k).mpr h)]
  rfl

theorem upsertRow_of_not_mem (st : Store) (k : String) (r : EventRow)
    (h : ¬ k ∈ storeKeys st) :
    upsertRow st k r = st ++ [(k, r)] := by
  rw [upsertRow, if_neg (fun ha => h ((storeAny_iff st k).mp ha))]

theorem storeKeys_writePayload (st : Store) (k : String) (pl : Json) :
    storeKeys (writePayload st k pl) = storeKeys st := by
  induction st with
  | nil => rfl
  | cons p t ih =>
    obtain ⟨k0, r0⟩ := p
    rw [writePayload_cons]
    by_cases h : k0 = k <;> simp only [if_pos, if_neg, h, if_true, if_false] <;>
      simp [storeKeys] at ih ⊢ <;> exact ih

theorem storeKeys_upsertRow (st : Store) (k : String) (r : EventRow) :
    storeKeys (upsertRow st k r) = storeKeys st ∨
    storeKeys (upsertRow st k r) = storeKeys st ++ [k] := by
  by_cases h : k ∈ storeKeys st
  · left; rw [upsertRow_of_mem st k r h, storeKeys_writePayload]
  · right
    rw [upsertRow_of_not_mem st k r h, storeKeys, List.map_append]
    rfl

theorem mem_storeKeys_upsertRow (st : Store) (k k' : String) (r : EventRow)
    (h : k' ∈ storeKeys st) : k' ∈ storeKeys (upsertRow st k r) := by
  rcases storeKeys_upsertRow st k r with he | he <;> rw [he]
  · exact h
  · exact List.mem_append_left _ h

theorem mem_storeKeys_upsertRow_self (st : Store) (k : String) (r : EventRow) :
    k ∈ storeKeys (upsertRow st k r) := by
  by_cases h : k ∈ storeKeys st
  · exact mem_storeKeys_upsertRow st k k r h
  · rw [upsertRow_of_not_mem st k r h, storeKeys, List.map_append]
    exact List.mem_append_right _ (by simp)

theorem mem_storeKeys_insert_events (b : List CanonicalEvent) :
    ∀ (st : Store) (k : String), k ∈ storeKeys st →
      k ∈ storeKeys (insert_events st b) := by
  induction b with
  | nil => intro st k h; exact h
  | cons e bs ih =>
    intro st k h
    exact ih _ k (mem_storeKeys_upsertRow st e.event_id k (rowOfEvent e) h)

theorem writePayload_writePayload (st : Store) (k : String) (p1 p2 : Json) :
    writePayload (writePayload st k p1) k p2 = writePayload st k p2 := by
  induction st with
  | nil => rfl
  | cons q t ih =>
    obtain ⟨k0, r0⟩ := q
    by_cases h : k0 = k
    · rw [writePayload_cons, if_pos h, writePayload_cons, if_pos h, writePayload_cons,
        if_pos h, setPayload_setPayload, ih]
    · rw [writePayload_cons, if_neg h, writePayload_cons, if_neg h, writePayload_cons,
        if_neg h, ih]

theorem writePayload_comm (st : Store) (k k' : String) (p p' : Json) (hkk : k ≠ k') :
    writePayload (writePayload st k p) k' p' = writePayload (writePayload st k' p') k p := by
  induction st with
  | nil => rfl
  | cons q t ih =>
    obtain ⟨k0, r0⟩ := q
    by_cases h : k0 = k
    · have h' : ¬ k0 = k' := h ▸ hkk
      rw [writePayload_cons, if_pos h, writePayload_cons, if_neg h', writePayload_cons,
        if_neg h', writePayload_cons, if_pos h, ih]
    · by_cases h' : k0 = k'
      · rw [writePayload_cons, if_neg h, writePayload_cons, if_pos h', writePayload_cons,
          if_pos h', writePayload_cons, if_neg h, ih]
      · rw [writePayload_cons, if_neg h, writePayload_cons, if_neg h', writePayload_cons,
          if_neg h', writePayload_cons, if_neg h, ih]

theorem writePayload_append_single (st : Store) (k k' : String) (p : Json) (r' : EventRow)
    (h : k' ≠ k) :
    writePayload (st ++ [(k', r')]) k p = writePayload st k p ++ [(k', r')] := by
  rw [writePayload, List.map_append, writePayload]
  simp [h]

theorem upsertRow_writePayload (st : Store) (k k' : String) (p : Json) (r : EventRow)
    (hk : k ∈ storeKeys st) (hne : k' ≠ k) :
    upsertRow (writePayload st k p) k' r = writePayload (upsertRow st k' r) k p := by
  by_cases h : k' ∈ storeKeys st
  · rw [upsertRow_of_mem _ k' r (by rw [storeKeys_writePayload]; exact h),
      upsertRow_of_mem st k' r h, writePayload_comm st k' k r.raw_payload p hne]
  · rw [upsertRow_of_not_mem _ k' r (by rw [storeKeys_writePayload]; exact h),
      upsertRow_of_not_mem st k' r h, writePayload_append_single st k k' p r hne]

theorem insert_events_writePayload_of_mem_batch (b : List CanonicalEvent) :
    ∀ (st : Store) (k : String) (p : Json), k ∈ storeKeys st → k ∈ batchIds b →
      insert_events (writePayload st k p) b = insert_events st b := by
  induction b with
  | nil => intro st k p hk hb; simp [batchIds] at hb
  | cons e bs ih =>
    intro st k p hk hb
    by_cases he : e.event_id = k
    · show insert_events (upsertRow (writePayload st k p) e.event_id (rowOfEvent e)) bs =
        insert_events (upsertRow st e.event_id (rowOfEvent e)) bs
      rw [he, upsertRow_of_mem _ k _ (by rw [storeKeys_writePayload]; exact hk),
        upsertRow_of_mem st k _ hk, writePayload_writePayload]
    · have hb' : k ∈ batchIds bs := by
        rcases List.mem_cons.mp hb with h | h
        · exact absurd h.symm he
        · exact h
      show insert_events (upsertRow (writePayload st k p) e.event_id (rowOfEvent e)) bs =
        insert_events (upsertRow st e.event_id (rowOfEvent e)) bs
      rw [upsertRow_writePayload st k e.event_id p (rowOfEvent e) hk he]
      exact ih _ k p (mem_storeKeys_upsertRow st e.event_id k (rowOfEvent e) hk) hb'

theorem insert_events_writePayload_of_not_mem_batch (b : List CanonicalEvent) :
    ∀ (st : Store) (k : String) (p : Json), k ∈ storeKeys st → ¬ k ∈ batchIds b →
      insert_events (writePayload st k p) b = writePayload (insert_events st b) k p := by
  induction b with
  | nil => intro st k p hk hb; rfl
  | cons e bs ih =>
    intro st k p hk hb
    have he : e.event_id ≠ k := fun h => hb (by simp [batchIds, h])
    have hb' : ¬ k ∈ batchIds bs := fun h => hb (by
      simp only [batchIds, List.map_cons, List.mem_cons]
      exact Or.inr (by simpa [batchIds] using h))
    show insert_events (upsertRow (writePayload st k p) e.event_id (rowOfEvent e)) bs =
      writePayload (insert_events (upsertRow st e.event_id (rowOfEvent e)) bs) k p
    rw [upsertRow_writePayload st k e.event_id p (rowOfEvent e) hk he]
    exact ih _ k p (mem_storeKeys_upsertRow st e.event_id k (rowOfEvent e) hk) hb'

theorem keyPayloadIs_writePayload_other (st : Store) (k k' : String) (pl p' : Json)
    (hne : k' ≠ k) (h : keyPayloadIs st k pl) :
    keyPayloadIs (writePayload st k' p') k pl := by
  intro q hq hqk
  obtain ⟨q0, hq0, hq0e⟩ := List.mem_map.mp hq
  by_cases h0 : q0.1 = k'
  · rw [if_pos h0] at hq0e
    rw [← hq0e] at hqk
    exact absurd (h0 ▸ hqk : (k' : String) = k) hne
  · rw [if_neg h0] at hq0e
    exact hq0e ▸ h q0 hq0 (hq0e ▸ hqk)

theorem keyPayloadIs_upsertRow_other (st : Store) (k k' : String) (pl : Json)
    (r : EventRow) (hne : k' ≠ k) (h : keyPayloadIs st k pl) :
    keyPayloadIs (upsertRow st k' r) k pl := by
  by_cases hm : k' ∈ storeKeys st
  · rw [upsertRow_of_mem st k' r hm]
    exact keyPayloadIs_writePayload_other st k k' pl r.raw_payload hne h
  · rw [upsertRow_of_not_mem st k' r hm]
    intro q hq hqk
    rcases List.mem_append.mp hq with hq | hq
    · exact h q hq hqk
    · rcases List.mem_singleton.mp hq with rfl
      exact absurd hqk hne

theorem keyPayloadIs_insert_events_of_not_mem (b : List CanonicalEvent) :
    ∀ (st : Store) (k : String) (pl : Json), ¬ k ∈ batchIds b →
      keyPayloadIs st k pl → keyPayloadIs (insert_events st b) k pl := by
  induction b with
  | nil => intro st k pl hb h; exact h
  | cons e bs ih =>
    intro st k pl hb h
    have he : e.event_id ≠ k := fun hx => hb (by simp [batchIds, hx])
    have hb' : ¬ k ∈ batchIds bs := fun hx => hb (by
      simp only [batchIds, List.map_cons, List.mem_cons]
      exact Or.inr (by simpa [batchIds] using hx))
    exact ih _ k pl hb' (keyPayloadIs_upsertRow_other st k e.event_id pl (rowOfEvent e) he h)

theorem writePayload_of_keyPayloadIs (st : Store) (k : String) (pl : Json)
    (h : keyPayloadIs st k pl) : writePayload st k pl = st := by
  induction st with
  | nil => rfl
  | cons q t ih =>
    obtain ⟨k0, r0⟩ := q
    have ht : keyPayloadIs t k pl := fun q' hq' => h q' (List.mem_cons_of_mem _ hq')
    rw [writePayload_cons]
    by_cases h0 : k0 = k
    · rw [if_pos h0, setPayload_of_eq r0 pl (h (k0, r0) (List.mem_cons_self _ _) h0), ih ht]
    · rw [if_neg h0, ih ht]

theorem keyPayloadIs_writePayload_self (st : Store) (k : String) (pl : Json) :
    keyPayloadIs (writePayload st k pl) k pl := by
  intro q hq hqk
  obtain ⟨q0, hq0, hq0e⟩ := List.mem_map.mp hq
  by_cases h0 : q0.1 = k
  · rw [if_pos h0] at hq0e
    rw [← hq0e]
    rfl
  · rw [if_neg h0] at hq0e
    exact absurd (hq0e ▸ hqk) h0

theorem keyPayloadIs_upsertRow_self (st : Store) (k : String) (r : EventRow) :
    keyPayloadIs (upsertRow st k r) k r.raw_payload := by
  by_cases hm : k ∈ storeKeys st
  · rw [upsertRow_of_mem st k r hm]
    exact keyPayloadIs_writePayload_self st k r.raw_payload
  · rw [upsertRow_of_not_mem st k r hm]
    intro q hq hqk
    rcases List.mem_append.mp hq with hq | hq
    · exact absurd (List.mem_map.mpr ⟨q, hq, hqk⟩) hm
    · rcases List.mem_singleton.mp hq with rfl
      rfl

/-- Core idempotency: replaying a batch over a store that already absorbed
it is the identity, regardless of the starting store. -/
theorem insert_events_insert_events (b : List CanonicalEvent) :
    ∀ st : Store, insert_events (insert_events st b) b = insert_events st b := by
  induction b with
  | nil => intro st; rfl
  | cons e bs ih =>
    intro st
    have hpe : (rowOfEvent e).raw_payload = e.raw_payload := rfl
    set k := e.event_id with hk
    set t := upsertRow st k (rowOfEvent e) with htdef
    have hkt : k ∈ storeKeys t := mem_storeKeys_upsertRow_self st k (rowOfEvent e)
    have hkFt : k ∈ storeKeys (insert_events t bs) := mem_storeKeys_insert_events bs t k hkt
    show insert_events (upsertRow (insert_events t bs) k (rowOfEvent e)) bs =
      insert_events t bs
    rw [upsertRow_of_mem _ k _ hkFt, hpe]
    by_cases hmem : k ∈ batchIds bs
    · rw [insert_events_writePayload_of_mem_batch bs _ k e.raw_payload hkFt hmem]
      exact ih _
    · rw [insert_events_writePayload_of_not_mem_batch bs _ k e.raw_payload hkFt hmem, ih t]
      refine writePayload_of_keyPayloadIs _ k e.raw_payload ?_
      refine keyPayloadIs_insert_events_of_not_mem bs t k e.raw_payload hmem ?_
      have := keyPayloadIs_upsertRow_self st k (rowOfEvent e)
      rwa [hpe] at this

/-- Keys stay duplicate-free across a batch insert. -/
theorem storeKeys_nodup_insert_events (b : List CanonicalEvent) :
    ∀ st : Store, (storeKeys st).Nodup → (storeKeys (insert_events st b)).Nodup := by
  induction b with
  | nil => intro st h; exact h
  | cons e bs ih =>
    intro st h
    refine ih _ ?_
    rcases storeKeys_upsertRow st e.event_id (rowOfEvent e) with he | he <;> rw [he]
    · exact h
    · by_cases hm : e.event_id ∈ storeKeys st
      · rw [upsertRow_of_mem st _ _ hm, storeKeys_writePayload] at he
        exact absurd he (by
          intro hcontra
          have : (storeKeys st).length = (storeKeys st).length + 1 := by
            conv_lhs => rw [hcontra]
            simp
          omega)
      · simp [List.nodup_append, h, hm]

theorem batchIds_mem_iff_find (bs : List CanonicalEvent) (k : String) :
    k ∈ batchIds bs ↔ (bs.reverse.find? (fun e => e.event_id = k)).isSome := by
  rw [List.find?_isSome]
  constructor
  · intro h
    obtain ⟨e, he, hek⟩ := List.mem_map.mp h
    exact ⟨e, List.mem_reverse.mpr he, by simpa using hek⟩
  · rintro ⟨e, he, hek⟩
    exact List.mem_map.mpr ⟨e, List.mem_reverse.mp he, by simpa using hek⟩

theorem lastPayload_cons_of_mem (e : CanonicalEvent) (bs : List CanonicalEvent)
    (k : String) (h : k ∈ batchIds bs) :
    lastPayload (e :: bs) k = lastPayload bs k := by
  rw [lastPayload, lastPayload, List.reverse_cons, List.find?_append]
  obtain ⟨x, hx⟩ := Option.isSome_iff_exists.mp ((batchIds_mem_iff_find bs k).mp h)
  rw [hx]
  rfl

theorem lastPayload_cons_self (e : CanonicalEvent) (bs : List CanonicalEvent)
    (k : String) (hk : e.event_id = k) (h : ¬ k ∈ batchIds bs) :
    lastPayload (e :: bs) k = some e.raw_payload := by
  rw [lastPayload, List.reverse_cons, List.find?_append]
  have hnone : bs.reverse.find? (fun e => e.event_id = k) = none := by
    rcases hfind : bs.reverse.find? (fun e => e.event_id = k) with _ | x
    · exact hfind
    · exact absurd ((batchIds_mem_iff_find bs k).mpr (by rw [hfind]; rfl)) h
  rw [hnone]
  simp [List.find?, hk]

theorem lastPayload_cons_none (e : CanonicalEvent) (bs : List CanonicalEvent)
    (k : String) (hk : e.event_id ≠ k) (h : ¬ k ∈ batchIds bs) :
    lastPayload (e :: bs) k = none := by
  rw [lastPayload, List.reverse_cons, List.find?_append]
  have hnone : bs.reverse.find? (fun e => e.event_id = k) = none := by
    rcases hfind : bs.reverse.find? (fun e => e.event_id = k) with _ | x
    · exact hfind
    · exact absurd ((batchIds_mem_iff_find bs k).mpr (by rw [hfind]; rfl)) h
  rw [hnone]
  simp [List.find?, hk]

theorem keyPayloadIs_insert_events_lastPayload (b : List CanonicalEvent) :
    ∀ (st : Store) (k : String) (pl : Json), lastPayload b k = some pl →
      keyPayloadIs (insert_events st b) k pl := by
  induction b with
  | nil => intro st k pl h; exact absurd h (by simp [lastPayload])
  | cons e bs ih =>
    intro st k pl h
    by_cases hmem : k ∈ batchIds bs
    · rw [lastPayload_cons_of_mem e bs k hmem] at h
      exact ih _ k pl h
    · by_cases hek : e.event_id = k
      · rw [lastPayload_cons_self e bs k hek hmem] at h
        obtain rfl : e.raw_payload = pl := by simpa using h
        show keyPayloadIs
          (insert_events (upsertRow st e.event_id (rowOfEvent e)) bs) k e.raw_payload
        refine keyPayloadIs_insert_events_of_not_mem bs _ k e.raw_payload hmem ?_
        rw [hek]
        exact keyPayloadIs_upsertRow_self st k (rowOfEvent e)
      · rw [lastPayload_cons_none e bs k hek hmem] at h
        exact absurd h (by simp)

theorem mem_storeKeys_insert_events_of_batch (b : List CanonicalEvent) :
    ∀ (st : Store) (k : String), k ∈ batchIds b →
      k ∈ storeKeys (insert_events st b) := by
  induction b with
  | nil => intro st k h; simp [batchIds] at h
  | cons e bs ih =>
    intro st k h
    by_cases hek : e.event_id = k
    · exact mem_storeKeys_insert_events bs _ k
        (hek ▸ mem_storeKeys_upsertRow_self st e.event_id (rowOfEvent e))
    · refine ih _ k ?_
      rcases List.mem_cons.mp h with h | h
      · exact absurd h.symm hek
      · exact h

theorem storeLookup_exists_of_mem (st : Store) (k : String) (h : k ∈ storeKeys st) :
    ∃ r, storeLookup st k = some r := by
  rcases hfind : st.find? (fun p => p.1 = k) with _ | q
  · exfalso
    obtain ⟨p, hp, hpk⟩ := List.mem_map.mp h
    have := List.find?_eq_none.mp hfind p hp
    simp [hpk] at this
  · exact ⟨q.2, by rw [storeLookup, hfind]; rfl⟩

theorem storeLookup_mem (st : Store) (k : String) (r : EventRow)
    (h : storeLookup st k = some r) : ∃ q ∈ st, q.1 = k ∧ q.2 = r := by
  rcases hfind : st.find? (fun p => p.1 = k) with _ | q
  · rw [storeLookup, hfind] at h
    exact absurd h (by simp)
  · rw [storeLookup, hfind] at h
    refine ⟨q, List.mem_of_find?_eq_some hfind, by simpa using List.find?_some hfind, ?_⟩
    simpa using h

/-- C7: insert_events is idempotent (replaying a batch is the identity on
the resulting store), keeps the event_id key set duplicate-free, the empty
batch is a no-op, and after an insert the looked-up payload of each
batched event_id is the payload of its last occurrence in the batch. -/
theorem c7_insert_events_idempotent (st : Store) (batch : List CanonicalEvent)
    (hnodup : (storeKeys st).Nodup) :
    insert_events (insert_events st batch) batch = insert_events st batch ∧
    (storeKeys (insert_events st batch)).Nodup ∧
    insert_events st [] = st ∧
    (∀ k pl, lastPayload batch k = some pl →
      ∃ r, storeLookup (insert_events st batch) k = some r ∧ r.raw_payload = pl) := by
  refine ⟨insert_events_insert_events batch st,
    storeKeys_nodup_insert_events batch st hnodup, rfl, fun k pl h => ?_⟩
  have hkmem : k ∈ batchIds batch := by
    rw [batchIds_mem_iff_find]
    rw [lastPayload] at h
    rcases hfind : batch.reverse.find? (fun e => e.event_id = k) with _ | x
    · rw [hfind] at h; exact absurd h (by simp)
    · rw [hfind]; rfl
  obtain ⟨r, hr⟩ := storeLookup_exists_of_mem _ k
    (mem_storeKeys_insert_events_of_batch batch st k hkmem)
  obtain ⟨q, hq, hqk, hqr⟩ := storeLookup_mem _ k r hr
  exact ⟨r, hr, hqr ▸ keyPayloadIs_insert_events_lastPayload batch st k pl h q hq hqk⟩

theorem c7_insert_events_idempotent_witness :
    (storeKeys []).Nodup ∧
    (insert_events (insert_events []
        [CanonicalEvent.new 7 0 "sigA" none (-1) "transaction" Json.null])
        [CanonicalEvent.new 7 0 "sigA" none (-1) "transaction" Json.null] =
      insert_events [] [CanonicalEvent.new 7 0 "sigA" none (-1) "transaction" Json.null] ∧
    (storeKeys (insert_events []
        [CanonicalEvent.new 7 0 "sigA" none (-1) "transaction" Json.null])).Nodup ∧
    insert_events [] [] = [] ∧
    (∀ k pl,
      lastPayload [CanonicalEvent.new 7 0 "sigA" none (-1) "transaction" Json.null] k =
        some pl →
      ∃ r, storeLookup (insert_events []
          [CanonicalEvent.new 7 0 "sigA" none (-1) "transaction" Json.null]) k = some r ∧
        r.raw_payload = pl)) :=
  ⟨List.nodup_nil,
    c7_insert_events_idempotent []
      [CanonicalEvent.new 7 0 "sigA" none (-1) "transaction" Json.null] List.nodup_nil⟩

/-! ## Parser lemmas (claims C3, C4, C8, C10) -/
/-- parse_instruction never fails and emits exactly one event. -/
theorem parse_instruction_eq (instruction : Json) (slot : Nat) (bt : Int)
    (sig : String) (ii : Int) :
    parse_instruction instruction slot bt sig ii =
      .ok [CanonicalEvent.new slot bt sig ((instruction.get "programId").bind Json.asStr) ii
        (if instructionProgramId instruction = TOKEN_PROGRAM_ID ∨
            instructionProgramId instruction = TOKEN_2022_PROGRAM_ID
          then "token_instruction" else "program_instruction") instruction] := rfl

theorem flatten_instructions_eq_id (l : List CanonicalEvent) :
    flatten_instructions l = l := by
  induction l with
  | nil => rfl
  | cons e t ih =>
    simp only [flatten_instructions]
    split_ifs <;> rw [ih]

/-- Inversion of the ok case of parse_transaction. -/
theorem parse_transaction_ok (tx : Json) (slot : Nat) (bt : Int) (i : Nat)
    (l : List CanonicalEvent) (h : parse_transaction tx slot bt i = .ok l) :
    ∃ meta txd sig instrs,
      tx.get "meta" = some meta ∧ tx.get "transaction" = some txd ∧
      extract_signature txd = .ok sig ∧ extract_instructions txd = .ok instrs ∧
      l = CanonicalEvent.new slot bt sig none (-1) "transaction" tx ::
        (instrEventsOf instrs slot bt sig ++ transfersOf meta slot bt sig) := by
  rw [parse_transaction] at h
  split at h
  · exact absurd h (by simp)
  next meta hm =>
    split at h
    · exact absurd h (by simp)
    next txd hd =>
      split at h
      · exact absurd h (by simp)
      next sig hs =>
        split at h
        · exact absurd h (by simp)
        next instrs hi =>
          exact ⟨meta, txd, sig, instrs, hm, hd, hs, hi, by simpa using h.symm⟩

/-- The ok case of parse_transaction, forward direction. -/
theorem parse_transaction_eq (tx : Json) (slot : Nat) (bt : Int) (i : Nat)
    (meta txd : Json) (sig : String) (instrs : List Json)
    (hm : tx.get "meta" = some meta) (hd : tx.get "transaction" = some txd)
    (hs : extract_signature txd = .ok sig)
    (hi : extract_instructions txd = .ok instrs) :
    parse_transaction tx slot bt i =
      .ok (CanonicalEvent.new slot bt sig none (-1) "transaction" tx ::
        (instrEventsOf instrs slot bt sig ++ transfersOf meta slot bt sig)) := by
  simp only [parse_transaction, hm, hd, hs, hi]

/-- Inversion of parse_block. -/
theorem parse_block_ok (block : Json) (slot : Nat) (evs : List CanonicalEvent)
    (h : parse_block block slot = .ok evs) :
    ∃ bt txs, extract_block_time block = .ok bt ∧
      (block.get "transactions").bind Json.asArr = some txs ∧
      evs = txs.enum.flatMap (txEvents slot bt) := by
  rw [parse_block] at h
  split at h
  · exact absurd h (by simp)
  next bt hb =>
    split at h
    · exact absurd h (by simp)
    next txs ht =>
      exact ⟨bt, txs, hb, ht, by simpa using h.symm⟩

/-- The events of a transaction's instruction pass, in instruction order:
their instruction_index values are 0, 1, ..., n-1 and each is classified as
a program or token instruction. -/
theorem instrEventsOf_eq_map (instrs : List Json) (slot : Nat) (bt : Int) (sig : String) :
    instrEventsOf instrs slot bt sig =
      instrs.enum.map (fun p =>
        CanonicalEvent.new slot bt sig ((p.2.get "programId").bind Json.asStr) (Int.ofNat p.1)
          (if instructionProgramId p.2 = TOKEN_PROGRAM_ID ∨
              instructionProgramId p.2 = TOKEN_2022_PROGRAM_ID
            then "token_instruction" else "program_instruction") p.2) := by
  rw [instrEventsOf]
  rw [show (fun p : Nat × Json =>
      match parse_instruction p.2 slot bt sig (Int.ofNat p.1) with
      | .ok evs => evs
      | .error _ => []) = fun p : Nat × Json =>
        [CanonicalEvent.new slot bt sig ((p.2.get "programId").bind Json.asStr) (Int.ofNat p.1)
          (if instructionProgramId p.2 = TOKEN_PROGRAM_ID ∨
              instructionProgramId p.2 = TOKEN_2022_PROGRAM_ID
            then "token_instruction" else "program_instruction") p.2] from
    funext fun p => by rw [parse_instruction_eq]]
  exact (List.map_eq_bind _ _).symm

theorem instrEventsOf_spec (instrs : List Json) (slot : Nat) (bt : Int) (sig : String) :
    (instrEventsOf instrs slot bt sig).map (fun e => e.instruction_index) =
      (List.range instrs.length).map Int.ofNat ∧
    ∀ e ∈ instrEventsOf instrs slot bt sig,
      e.event_type = "program_instruction" ∨ e.event_type = "token_instruction" := by
  have hform := instrEventsOf_eq_map instrs slot bt sig
  constructor
  · rw [hform, List.map_map]
    have : ((fun e : CanonicalEvent => e.instruction_index) ∘ fun p : Nat × Json =>
        CanonicalEvent.new slot bt sig ((p.2.get "programId").bind Json.asStr) (Int.ofNat p.1)
          (if instructionProgramId p.2 = TOKEN_PROGRAM_ID ∨
              instructionProgramId p.2 = TOKEN_2022_PROGRAM_ID
            then "token_instruction" else "program_instruction") p.2) =
        (Int.ofNat ∘ Prod.fst) := rfl
    rw [this, ← List.map_map, List.enum_map_fst]
  · intro e he
    rw [hform] at he
    obtain ⟨p, hp, hpe⟩ := List.mem_map.mp he
    rw [← hpe]
    by_cases hc : instructionProgramId p.2 = TOKEN_PROGRAM_ID ∨
        instructionProgramId p.2 = TOKEN_2022_PROGRAM_ID
    · right
      show (if instructionProgramId p.2 = TOKEN_PROGRAM_ID ∨
          instructionProgramId p.2 = TOKEN_2022_PROGRAM_ID
        then "token_instruction" else "program_instruction") = "token_instruction"
      rw [if_pos hc]
    · left
      show (if instructionProgramId p.2 = TOKEN_PROGRAM_ID ∨
          instructionProgramId p.2 = TOKEN_2022_PROGRAM_ID
        then "token_instruction" else "program_instruction") = "program_instruction"
      rw [if_neg hc]

theorem transfersOf_spec (meta : Json) (slot : Nat) (bt : Int) (sig : String) :
    ∀ e ∈ transfersOf meta slot bt sig, e.event_type = "token_transfer" := by
  intro e he
  rw [transfersOf, extract_token_transfers] at he
  obtain ⟨p, hp, hpe⟩ := List.mem_filterMap.mp he
  rcases hmint : (p.2.get "mint").bind Json.asStr with _ | m <;> rw [hmint] at hpe
  · exact absurd hpe (by simp)
  · obtain rfl : CanonicalEvent.new slot bt sig (some TOKEN_PROGRAM_ID) (Int.ofNat p.1)
        "token_transfer" p.2 = e := by simpa using hpe
    rfl

/-- Every event the parser emits carries the id derived from its own
(slot, signature, instruction index, event type) tuple. -/
theorem parse_block_event_ids (block : Json) (slot : Nat) (evs : List CanonicalEvent)
    (h : parse_block block slot = .ok evs) :
    ∀ e ∈ evs, e.event_id = CanonicalEvent.generate_event_id e.slot e.tx_signature
      e.instruction_index e.event_type := by
  obtain ⟨bt, txs, _, _, rfl⟩ := parse_block_ok block slot evs h
  intro e he
  obtain ⟨p, _, hpe⟩ := List.mem_flatMap.mp he
  rw [txEvents] at hpe
  rcases hpt : parse_transaction p.2 slot bt p.1 with _ | l <;> rw [hpt] at hpe
  · exact absurd hpe (by simp)
  obtain ⟨meta, txd, sig, instrs, _, _, _, _, rfl⟩ :=
    parse_transaction_ok p.2 slot bt p.1 l hpt
  rcases List.mem_cons.mp hpe with rfl | hpe
  · rfl
  rcases List.mem_append.mp hpe with hpe | hpe
  · rw [instrEventsOf_eq_map] at hpe
    obtain ⟨q, _, hqe⟩ := List.mem_map.mp hpe
    rw [← hqe]
    rfl
  · rw [transfersOf, extract_token_transfers] at hpe
    obtain ⟨q, _, hqe⟩ := List.mem_filterMap.mp hpe
    rcases hmint : (q.2.get "mint").bind Json.asStr with _ | m <;> rw [hmint] at hqe
    · exact absurd hqe (by simp)
    · obtain rfl : CanonicalEvent.new slot bt sig (some TOKEN_PROGRAM_ID) (Int.ofNat q.1)
          "token_transfer" q.2 = e := by simpa using hqe
      rfl

/-- C3: parse_block (with flatten_instructions) is a pure function of the
raw block and slot — repeated invocations agree on the event sequence and
event ids — and every emitted event's event_id is
CanonicalEvent.generate_event_id of its own tuple, the SHA-256 hex digest
of "slot:signature:index:type" (see sha256Hex). -/
theorem c3_parse_determinism_and_event_ids (block : Json) (slot : Nat)
    (evs : List CanonicalEvent) (h : parse_block block slot = .ok evs) :
    (∀ evs2, parse_block block slot = .ok evs2 →
      evs2 = evs ∧ flatten_instructions evs2 = flatten_instructions evs) ∧
    (∀ e ∈ flatten_instructions evs,
      e.event_id = CanonicalEvent.generate_event_id e.slot e.tx_signature
        e.instruction_index e.event_type) := by
  refine ⟨fun evs2 h2 => ?_, ?_⟩
  · obtain rfl : evs2 = evs := by
      have := h2.symm.trans h
      simpa using this
    exact ⟨rfl, rfl⟩
  · rw [flatten_instructions_eq_id]
    exact parse_block_event_ids block slot evs h

/-- C4: within a parsed block the events are the concatenation of the
per-transaction event lists in transaction order; within one transaction
the base transaction event (index -1) comes first, then the instruction
events in instruction order (indices 0..n-1), then the derived transfer
events; and flatten_instructions preserves the sequence unchanged. -/
theorem c4_parse_block_ordering :
    (∀ (block : Json) (slot : Nat) (bt : Int) (txs : List Json)
        (evs : List CanonicalEvent),
      extract_block_time block = .ok bt →
      (block.get "transactions").bind Json.asArr = some txs →
      parse_block block slot = .ok evs →
      evs = txs.enum.flatMap (txEvents slot bt)) ∧
    (∀ (tx : Json) (slot : Nat) (bt : Int) (i : Nat) (l : List CanonicalEvent),
      parse_transaction tx slot bt i = .ok l →
      ∃ base iEvs tEvs,
        l = base :: (iEvs ++ tEvs) ∧
        base.event_type = "transaction" ∧ base.instruction_index = -1 ∧
        (∃ txd instrs, tx.get "transaction" = some txd ∧
          extract_instructions txd = .ok instrs ∧
          iEvs.map (fun e => e.instruction_index) =
            (List.range instrs.length).map Int.ofNat) ∧
        (∀ e ∈ iEvs, e.event_type = "program_instruction" ∨
          e.event_type = "token_instruction") ∧
        (∀ e ∈ tEvs, e.event_type = "token_transfer")) ∧
    (∀ evs, flatten_instructions evs = evs) := by
  refine ⟨fun block slot bt txs evs hb ht h => ?_, fun tx slot bt i l h => ?_,
    flatten_instructions_eq_id⟩
  · obtain ⟨bt2, txs2, hb2, ht2, rfl⟩ := parse_block_ok block slot evs h
    obtain rfl : bt2 = bt := by
      have := hb2.symm.trans hb
      simpa using this
    obtain rfl : txs2 = txs := by
      have := ht2.symm.trans ht
      simpa using this
    rfl
  · obtain ⟨meta, txd, sig, instrs, _, hd, _, hi, rfl⟩ :=
      parse_transaction_ok tx slot bt i l h
    obtain ⟨hidx, htypes⟩ := instrEventsOf_spec instrs slot bt sig
    exact ⟨CanonicalEvent.new slot bt sig none (-1) "transaction" tx,
      instrEventsOf instrs slot bt sig, transfersOf meta slot bt sig,
      rfl, rfl, rfl, ⟨txd, instrs, hd, hi, hidx⟩, htypes,
      transfersOf_spec meta slot bt sig⟩

/-- C10: parse_block fails exactly when the block timestamp is missing or
unparseable, or when the top-level transactions array is missing; for every
other malformed content it returns Ok with the failing transactions
contributing zero events (the per-transaction skip inside txEvents). -/
theorem c10_parse_block_error_conditions (block : Json) (slot : Nat) :
    ((∃ msg, parse_block block slot = .error msg) ↔
      ((∃ msg, extract_block_time block = .error msg) ∨
        (block.get "transactions").bind Json.asArr = none)) ∧
    (∀ bt txs, extract_block_time block = .ok bt →
      (block.get "transactions").bind Json.asArr = some txs →
      parse_block block slot = .ok (txs.enum.flatMap (txEvents slot bt))) := by
  constructor
  · rcases hb : extract_block_time block with eb | bt
    · exact ⟨fun _ => Or.inl ⟨eb, rfl⟩, fun _ => ⟨eb, by simp only [parse_block, hb]⟩⟩
    · rcases ht : (block.get "transactions").bind Json.asArr with _ | txs
      · exact ⟨fun _ => Or.inr rfl,
          fun _ => ⟨"Missing transactions array", by simp only [parse_block, hb, ht]⟩⟩
      · constructor
        · rintro ⟨msg, hmsg⟩
          rw [parse_block, hb, ht] at hmsg
          exact absurd hmsg (by simp)
        · rintro (⟨msg, hmsg⟩ | hnone)
          · exact absurd hmsg (by simp)
          · exact absurd hnone (by simp)
  · intro bt txs hb ht
    simp only [parse_block, hb, ht]

/-- C8: every instruction is classified token_instruction exactly when its
programId is the SPL Token or Token-2022 program id, else
program_instruction; and a transaction with three instructions where only
the second is on a token program yields one transaction event followed by
events typed program_instruction, token_instruction, program_instruction
in that order (then the derived transfers). -/
theorem c8_instruction_classification :
    (∀ (instruction : Json) (slot : Nat) (bt : Int) (sig : String) (ii : Int),
      ∃ e, parse_instruction instruction slot bt sig ii = .ok [e] ∧
        (e.event_type = "token_instruction" ∨ e.event_type = "program_instruction") ∧
        (e.event_type = "token_instruction" ↔
          (instructionProgramId instruction = TOKEN_PROGRAM_ID ∨
            instructionProgramId instruction = TOKEN_2022_PROGRAM_ID))) ∧
    (∀ (tx : Json) (slot : Nat) (bt : Int) (i : Nat) (meta txd : Json) (sig : String)
        (i1 i2 i3 : Json),
      tx.get "meta" = some meta → tx.get "transaction" = some txd →
      extract_signature txd = .ok sig → extract_instructions txd = .ok [i1, i2, i3] →
      (instructionProgramId i2 = TOKEN_PROGRAM_ID ∨
        instructionProgramId i2 = TOKEN_2022_PROGRAM_ID) →
      ¬ (instructionProgramId i1 = TOKEN_PROGRAM_ID ∨
        instructionProgramId i1 = TOKEN_2022_PROGRAM_ID) →
      ¬ (instructionProgramId i3 = TOKEN_PROGRAM_ID ∨
        instructionProgramId i3 = TOKEN_2022_PROGRAM_ID) →
      ∃ base e1 e2 e3 tEvs,
        parse_transaction tx slot bt i = .ok ([base, e1, e2, e3] ++ tEvs) ∧
        base.event_type = "transaction" ∧
        e1.event_type = "program_instruction" ∧
        e2.event_type = "token_instruction" ∧
        e3.event_type = "program_instruction" ∧
        (∀ e ∈ tEvs, e.event_type = "token_transfer")) := by
  constructor
  · intro instruction slot bt sig ii
    refine ⟨_, parse_instruction_eq instruction slot bt sig ii, ?_, ?_⟩
    · by_cases hc : instructionProgramId instruction = TOKEN_PROGRAM_ID ∨
          instructionProgramId instruction = TOKEN_2022_PROGRAM_ID
      · left
        show (if _ then "token_instruction" else "program_instruction") = _
        rw [if_pos hc]
      · right
        show (if _ then "token_instruction" else "program_instruction") = _
        rw [if_neg hc]
    · by_cases hc : instructionProgramId instruction = TOKEN_PROGRAM_ID ∨
          instructionProgramId instruction = TOKEN_2022_PROGRAM_ID
      · constructor
        · intro _; exact hc
        · intro _
          show (if _ then "token_instruction" else "program_instruction") = _
          rw [if_pos hc]
      · constructor
        · intro htype
          exfalso
          revert htype
          show ¬ ((if _ then "token_instruction" else "program_instruction") = _)
          rw [if_neg hc]
          decide
        · intro h; exact absurd h hc
  · intro tx slot bt i meta txd sig i1 i2 i3 hm hd hs hi h2 h1 h3
    have h123 : instrEventsOf [i1, i2, i3] slot bt sig =
        [CanonicalEvent.new slot bt sig ((i1.get "programId").bind Json.asStr)
          (Int.ofNat 0) "program_instruction" i1,
         CanonicalEvent.new slot bt sig ((i2.get "programId").bind Json.asStr)
          (Int.ofNat 1) "token_instruction" i2,
         CanonicalEvent.new slot bt sig ((i3.get "programId").bind Json.asStr)
          (Int.ofNat 2) "program_instruction" i3] := by
      rw [instrEventsOf_eq_map]
      simp only [List.enum, List.enumFrom, List.map_cons, List.map_nil]
      rw [if_neg h1, if_pos h2, if_neg h3]
    have hpt := parse_transaction_eq tx slot bt i meta txd sig [i1, i2, i3] hm hd hs hi
    rw [h123] at hpt
    exact ⟨CanonicalEvent.new slot bt sig none (-1) "transaction" tx,
      _, _, _, transfersOf meta slot bt sig, hpt, rfl, rfl, rfl, rfl,
      transfersOf_spec meta slot bt sig⟩

theorem c3_parse_determinism_and_event_ids_witness :
    parse_block blockWitness 7 =
      .ok [CanonicalEvent.new 7 1700000000 "s1" none (-1) "transaction" txWitness] ∧
    (∀ e ∈ flatten_instructions
        [CanonicalEvent.new 7 1700000000 "s1" none (-1) "transaction" txWitness],
      e.event_id = CanonicalEvent.generate_event_id e.slot e.tx_signature
        e.instruction_index e.event_type) :=
  ⟨rfl, (c3_parse_determinism_and_event_ids blockWitness 7
    [CanonicalEvent.new 7 1700000000 "s1" none (-1) "transaction" txWitness] rfl).2⟩

theorem c4_parse_block_ordering_witness :
    extract_block_time blockWitness = .ok 1700000000 ∧
    (blockWitness.get "transactions").bind Json.asArr = some [txWitness] ∧
    parse_block blockWitness 7 =
      .ok [CanonicalEvent.new 7 1700000000 "s1" none (-1) "transaction" txWitness] ∧
    [CanonicalEvent.new 7 1700000000 "s1" none (-1) "transaction" txWitness] =
      ([txWitness].enum).flatMap (txEvents 7 1700000000) :=
  ⟨rfl, rfl, rfl,
    c4_parse_block_ordering.1 blockWitness 7 1700000000 [txWitness]
      [CanonicalEvent.new 7 1700000000 "s1" none (-1) "transaction" txWitness]
      rfl rfl rfl⟩

theorem c10_parse_block_error_conditions_witness :
    (noTxBlockWitness.get "transactions").bind Json.asArr = none ∧
    (∃ msg, parse_block noTxBlockWitness 9 = .error msg) ∧
    extract_block_time emptyBlockWitness = .ok 1700000000 ∧
    (emptyBlockWitness.get "transactions").bind Json.asArr = some [] ∧
    parse_block emptyBlockWitness 9 =
      .ok (([] : List Json).enum.flatMap (txEvents 9 1700000000)) :=
  ⟨rfl,
    (c10_parse_block_error_conditions noTxBlockWitness 9).1.mpr (Or.inr rfl),
    rfl, rfl,
    (c10_parse_block_error_conditions emptyBlockWitness 9).2 1700000000 [] rfl rfl⟩

theorem c8_instruction_classification_witness :
    txWitness3.get "meta" = some (Json.obj []) ∧
    txWitness3.get "transaction" = some txdWitness3 ∧
    extract_signature txdWitness3 = .ok "s3" ∧
    extract_instructions txdWitness3 =
      .ok [instrOtherWitness, instrTokenWitness, instrOtherWitness] ∧
    (instructionProgramId instrTokenWitness = TOKEN_PROGRAM_ID ∨
      instructionProgramId instrTokenWitness = TOKEN_2022_PROGRAM_ID) ∧
    ¬ (instructionProgramId instrOtherWitness = TOKEN_PROGRAM_ID ∨
      instructionProgramId instrOtherWitness = TOKEN_2022_PROGRAM_ID) ∧
    (∃ base e1 e2 e3 tEvs,
      parse_transaction txWitness3 11 0 0 = .ok ([base, e1, e2, e3] ++ tEvs) ∧
      base.event_type = "transaction" ∧
      e1.event_type = "program_instruction" ∧
      e2.event_type = "token_instruction" ∧
      e3.event_type = "program_instruction" ∧
      (∀ e ∈ tEvs, e.event_type = "token_transfer")) :=
  ⟨rfl, rfl, rfl, rfl, Or.inl rfl, by decide,
    c8_instruction_classification.2 txWitness3 11 0 0 (Json.obj []) txdWitness3 "s3"
      instrOtherWitness instrTokenWitness instrOtherWitness
      rfl rfl rfl rfl (Or.inl rfl) (by decide) (by decide)⟩
